import Mathlib

/-!
Verification of the gphotos reconciliation-and-organization pipeline.

This file gives a shallow embedding of the core pure logic of the Go
sources (date resolution, filename date guessing with custom patterns and
exclusions, album detection, sidecar prefix matching, dedup grouping and
merging, album assignment, the hash-cache registry builder and the output
collision resolver) and proves theorems about the spec's claims.

Modelling conventions:
* Go strings are Lean `String`s; the handful of library helpers the code
  uses (strings.Split, HasSuffix, TrimSuffix, ToLower, filepath.Base,
  filepath.Ext, ...) are re-implemented over `String.data` so that every
  definition evaluates by kernel reduction.
* `time.Time` is modelled by `GoTime`: the instant (`nanos`, comparison by
  `Before` is comparison of instants), together with the calendar year of
  the instant (`year`, Go's `Year()`) and whether the value is Go's zero
  time (`zeroT`, Go's `IsZero()`).  The two derived fields are carried as
  data because the claims quantify over arbitrary instants; Go's real
  zero time has year 1, which theorems take as a hypothesis where needed.
* File-system reads, hashing and the external exif tool are oracles
  (`String -> Option _` or `String -> Bool` parameters); Go maps are
  association lists in first-insertion order (Go's randomized iteration
  order is determinized; the claims proved are insensitive to it).
-/

/-- Split a character list at every occurrence of the separator, Go
`strings.Split` semantics: the empty input yields one empty field. -/
def splitChars (sep : Char) : List Char → List (List Char)
  | [] => [[]]
  | c :: cs =>
    let r := splitChars sep cs
    if c = sep then [] :: r
    else
      match r with
      | [] => [[c]]
      | g :: gs => (c :: g) :: gs

/-- Go `strings.Split(s, sep)` for a one-character separator. -/
def goSplit (s : String) (sep : Char) : List String :=
  (splitChars sep s.data).map String.mk

/-- Go `strings.HasPrefix(s, pre)` (byte comparison; modelled on chars). -/
def goStartsWith (s pre : String) : Bool :=
  pre.data.isPrefixOf s.data

/-- Go `strings.HasSuffix(s, suf)`. -/
def goEndsWith (s suf : String) : Bool :=
  suf.data.isSuffixOf s.data

/-- Go `strings.TrimSuffix(s, suf)`. -/
def goTrimSuffix (s suf : String) : String :=
  if goEndsWith s suf then String.mk (s.data.take (s.data.length - suf.data.length)) else s

/-- Go `strings.ToLower` restricted to ASCII (the inputs in play). -/
def goToLower (s : String) : String :=
  String.mk (s.data.map Char.toLower)

/-- Length of a Go string (bytes; all strings in play are ASCII so this
coincides with the character count). -/
def goLen (s : String) : Nat :=
  s.data.length

/-- Go slicing `s[:n]` on an ASCII string. -/
def goTake (s : String) (n : Nat) : String :=
  String.mk (s.data.take n)

/-- Go `filepath.Base` (unix separators): empty path gives ".", trailing
slashes are dropped, then everything up to the last slash is dropped; an
all-slash path gives "/". -/
def goBase (path : String) : String :=
  if path = "" then "."
  else
    let chars := path.data.reverse.dropWhile (fun c => c = '/')
    if chars = [] then "/"
    else String.mk ((chars.takeWhile (fun c => c ≠ '/')).reverse)

/-- Go `filepath.Ext`: the suffix starting at the final dot in the final
slash-separated element, or the empty string when there is none. -/
def goExt (path : String) : String :=
  let rec scan (acc : List Char) : List Char → String
    | [] => ""
    | c :: cs =>
      if c = '/' then ""
      else if c = '.' then String.mk ('.' :: acc)
      else scan (c :: acc) cs
  scan [] path.data.reverse

/-- Go `filepath.Join(dir, name)` for a clean directory and a bare file
name (the only shapes the output pipeline produces). -/
def goJoin (dir name : String) : String :=
  dir ++ "/" ++ name

/-!  ## Time model and date resolution (src/core/metadata/date.go)  -/

/-- Model of Go `time.Time`: the instant in nanoseconds since the epoch,
its calendar year, and whether it is the zero time (see the header note). -/
structure GoTime where
  nanos : Int
  year : Int
  zeroT : Bool
deriving DecidableEq, Repr

/-- Go's zero `time.Time` (January 1, year 1): `IsZero` holds and the
instant is `-62135596800` seconds before the epoch. -/
def zeroTime : GoTime :=
  { nanos := -62135596800 * 1000000000, year := 1, zeroT := true }

/-- `a.Before(b)` on instants. -/
def timeBefore (a b : GoTime) : Bool :=
  a.nanos < b.nanos

/-- Date accuracy constants of date.go. -/
def dateAccuracyJSON : Int := 1

/-- Filename-tier accuracy constant. -/
def dateAccuracyFilename : Int := 2

/-- Exif-tier accuracy constant. -/
def dateAccuracyExif : Int := 3

/-- Unknown-tier accuracy constant. -/
def dateAccuracyNone : Int := 99

/-- `isReasonable` of date.go: not the zero time, year at least 1990 and
at most the current year plus one (`nowYear` abstracts `time.Now().Year()`). -/
def isReasonable (nowYear : Int) (t : GoTime) : Bool :=
  if t.zeroT then false
  else if t.year < 1990 then false
  else if t.year > nowYear + 1 then false
  else true

/-- `shouldOverrideJSON` of date.go: the filename time wins only when it
is strictly before the sidecar time and looks reasonable. -/
def shouldOverrideJSON (nowYear : Int) (jsonTime fileTime : GoTime) : Bool :=
  if !(timeBefore fileTime jsonTime) then false
  else if !(isReasonable nowYear fileTime) then false
  else true

/-- `ExtractBestDate` of date.go, parameterized by the results of the
three source extractors (`ParseJSONTakenTime`, `GuessDateFromFilename`,
`ParseExifTakenTime`), which in Go read the file system / subprocess. -/
def extractBestDate (nowYear : Int) (jsonTime : GoTime) (hasJSON : Bool)
    (fileTime : GoTime) (hasFile : Bool) (exifTime : GoTime) (hasExif : Bool) :
    GoTime × Int × Bool :=
  if hasJSON && hasFile then
    if shouldOverrideJSON nowYear jsonTime fileTime then (fileTime, dateAccuracyFilename, true)
    else (jsonTime, dateAccuracyJSON, true)
  else if hasJSON then (jsonTime, dateAccuracyJSON, true)
  else if hasFile then (fileTime, dateAccuracyFilename, true)
  else if hasExif then (exifTime, dateAccuracyExif, true)
  else (zeroTime, dateAccuracyNone, false)

/-- `ExtractBestDateWithCustomAndExclusions` of custom_patterns.go,
parameterized by the filename-guess result and by the exif oracle
(`ParseExifTakenTime`, consulted only on the fall-through path; its
failure value is the zero time, as in Go).  Returns
(time, accuracy, ok, exifTime, hasExif) as the Go quintuple does. -/
def extractBestDateWCE (nowYear : Int) (jsonTime : GoTime) (hasJSON : Bool)
    (fileTime : GoTime) (hasFile : Bool) (exifLookup : GoTime × Bool) :
    GoTime × Int × Bool × GoTime × Bool :=
  if hasJSON && hasFile then
    if shouldOverrideJSON nowYear jsonTime fileTime then
      (fileTime, dateAccuracyFilename, true, zeroTime, false)
    else (jsonTime, dateAccuracyJSON, true, zeroTime, false)
  else if hasJSON then (jsonTime, dateAccuracyJSON, true, zeroTime, false)
  else if hasFile then (fileTime, dateAccuracyFilename, true, zeroTime, false)
  else
    if exifLookup.2 then (exifLookup.1, dateAccuracyExif, true, exifLookup.1, exifLookup.2)
    else (zeroTime, dateAccuracyNone, false, exifLookup.1, exifLookup.2)

/-!  ## Filename date guessing with custom patterns and exclusions
(src/core/metadata/custom_patterns.go)

A compiled date pattern (regex plus parse function) is abstracted as a
matcher `String -> Option GoTime`: the composite of
`FindStringSubmatch` / `FindString` and the layout parser applied to the
basename.  The built-in pattern list of date.go is likewise abstracted as
one such function (`GuessDateFromFilename` is a pure function of the
basename).  -/

/-- `isExcluded` of custom_patterns.go: the exclusion set (modelled as
the list of file names mapped to true) is consulted with the basename. -/
def isExcluded (path : String) (exclude : List String) : Bool :=
  if exclude.length = 0 then false
  else exclude.contains (goBase path)

/-- `guessWithPatterns` of custom_patterns.go: the first pattern whose
matcher succeeds on the basename determines the result. -/
def guessWithPatterns (path : String) (patterns : List (String → Option GoTime)) :
    Option GoTime :=
  if patterns.length = 0 then none
  else
    let base := goBase path
    let rec loop : List (String → Option GoTime) → Option GoTime
      | [] => none
      | p :: ps =>
        match p base with
        | some t => some t
        | none => loop ps
    loop patterns

/-- `GuessDateFromFilenameWithCustomAndExclusions` of custom_patterns.go:
exclusion check, then the user's custom patterns (already compiled by
`buildCustomPatterns`, abstracted as matchers), then a second exclusion
check, then the built-in list (`builtin` abstracts `GuessDateFromFilename`). -/
def guessDateFromFilenameWCE (builtin : String → Option GoTime)
    (custom : List (String → Option GoTime)) (exclude : List String)
    (path : String) : Option GoTime :=
  if isExcluded path exclude then none
  else
    match guessWithPatterns path custom with
    | some t => some t
    | none =>
      if isExcluded path exclude then none
      else builtin path

example : goSplit "a/b" '/' = ["a", "b"] := by decide
example : goSplit "" '/' = [""] := by decide
example : goBase "/x/y.jpg" = "y.jpg" := by decide
example : goExt "a.b.jpg" = ".jpg" := by decide
example : goExt "abc" = "" := by decide
example : goTrimSuffix "a.jpg" ".jpg" = "a" := by decide

/-!  ## Scanner: album detection (src/core/scanner/scanner.go)  -/

/-- The body of `detectAlbum` after `strings.Split(rel, sep)`: the Go
if-chain over the path segments (`parts[0]`, `parts[1]` are in range by
the guarding length checks; `getD` supplies an unused default). -/
def albumFromParts (parts : List String) : String :=
  if 1 < parts.length then
    if parts.getD 0 "" = "Google Photos" ∧ 2 < parts.length then
      if goStartsWith (parts.getD 1 "") "Photos from" = false then parts.getD 1 ""
      else ""
    else if goStartsWith (parts.getD 0 "") "Photos from" = false then parts.getD 0 ""
    else ""
  else ""

/-- Modelled from the spec: Go `filepath.Rel(root, path)` restricted to
the shapes the scanner produces (WalkDir yields `path` equal to `root`
or strictly under it).  On a Rel error the Go code ignores the error and
keeps the zero value "", which the last branch reproduces. -/
def goRel (root path : String) : String :=
  if path = root then "."
  else if goStartsWith path (root ++ "/") then String.mk (path.data.drop (root.data.length + 1))
  else ""

/-- `detectAlbum` of scanner.go. -/
def detectAlbum (root path : String) : String :=
  albumFromParts (goSplit (goRel root path) '/')

/-- Album detection as the claim states it (spec side, for comparison):
the segment immediately under the root, except that a "Photos from"
container yields no album and the wrapper segment "Google Photos" is
skipped, with a file directly under the root or only under the wrapper
belonging to no album. -/
def detectAlbumClaim (parts : List String) : String :=
  match parts with
  | [] => ""
  | [_] => ""
  | p0 :: p1 :: rest =>
    if p0 = "Google Photos" then
      match rest with
      | [] => ""
      | _ :: _ => if goStartsWith p1 "Photos from" then "" else p1
    else if goStartsWith p0 "Photos from" then "" else p0

/-- Album detection as amended: identical to the claim except that a
file lying only under the wrapper segment is assigned the wrapper name
"Google Photos" itself as its album (the wrapper is excluded only when
the file lies at least two segments below the root). -/
def detectAlbumAmended (parts : List String) : String :=
  match parts with
  | [] => ""
  | [_] => ""
  | p0 :: p1 :: rest =>
    if p0 = "Google Photos" then
      match rest with
      | [] => "Google Photos"
      | _ :: _ => if goStartsWith p1 "Photos from" then "" else p1
    else if goStartsWith p0 "Photos from" then "" else p0

/-!  ## Scanner: longest-matching-prefix sidecar fallback  -/

/-- `stripExt` of scanner.go. -/
def stripExt (path : String) : String :=
  let ext := goExt path
  if ext = "" then path else goTrimSuffix path ext

/-- One entry of `jsonByDir`: a sidecar's declared title and its path. -/
structure JsonTitleEntry where
  title : String
  path : String
deriving DecidableEq, Repr

/-- The loop body of `pickPrefixCandidate`: the running state is
(best, bestLen), starting from ("", 0). -/
def prefixStep (ext baseNoExt : String) (st : String × Nat) (entry : JsonTitleEntry) :
    String × Nat :=
  let title := goToLower entry.title
  if ext = "" then st
  else if goEndsWith title ext = false then st
  else
    let titleBase := goTrimSuffix title ext
    if goStartsWith titleBase baseNoExt = false then st
    else if st.1 = "" ∨ goLen titleBase < st.2 then (entry.path, goLen titleBase)
    else st

/-- `pickPrefixCandidate` of scanner.go.  `entries` stands for
`jsonByDir[filepath.Dir(mediaPath)]`, the sidecar entries of the media
file's directory. -/
def pickPrefixCandidate (entries : List JsonTitleEntry) (mediaPath : String) : String :=
  if entries.length = 0 then ""
  else
    let base := goBase mediaPath
    let ext := goToLower (goExt base)
    let baseNoExt := goToLower (stripExt base)
    (entries.foldl (prefixStep ext baseNoExt) ("", 0)).1

/-- First element of the list minimizing `len` (earlier element wins a
tie), or `none` for the empty list. -/
def minByFirst (len : α → Nat) : List α → Option α
  | [] => none
  | a :: rest =>
    match minByFirst len rest with
    | none => some a
    | some b => if len b < len a then some b else some a

/-- Qualifying condition of `pickPrefixCandidate` as the claim states
it: the (lowercased) title ends with the media extension and the title
minus that extension is a prefix of the media basename. -/
def prefixQualClaim (ext baseNoExt : String) (e : JsonTitleEntry) : Bool :=
  ext ≠ "" && goEndsWith (goToLower e.title) ext &&
    goStartsWith baseNoExt (goTrimSuffix (goToLower e.title) ext)

/-- Qualifying condition as amended: the prefix relation is the one the
code checks — the media basename is a prefix of the title minus the
extension. -/
def prefixQualAmended (ext baseNoExt : String) (e : JsonTitleEntry) : Bool :=
  ext ≠ "" && goEndsWith (goToLower e.title) ext &&
    goStartsWith (goTrimSuffix (goToLower e.title) ext) baseNoExt

/-- Modelled from the spec: the selection the claim describes — among
qualifying sidecars (claim's prefix direction), the one with the
shortest title (minus extension), or no match. -/
def pickPrefixClaim (entries : List JsonTitleEntry) (mediaPath : String) : String :=
  let base := goBase mediaPath
  let ext := goToLower (goExt base)
  let baseNoExt := goToLower (stripExt base)
  match minByFirst (fun e => goLen (goTrimSuffix (goToLower e.title) ext))
      (entries.filter (prefixQualClaim ext baseNoExt)) with
  | some e => e.path
  | none => ""

/-- The amended selection: as `pickPrefixClaim` but with the prefix
relation reversed to the one the code checks. -/
def pickPrefixAmended (entries : List JsonTitleEntry) (mediaPath : String) : String :=
  let base := goBase mediaPath
  let ext := goToLower (goExt base)
  let baseNoExt := goToLower (stripExt base)
  match minByFirst (fun e => goLen (goTrimSuffix (goToLower e.title) ext))
      (entries.filter (prefixQualAmended ext baseNoExt)) with
  | some e => e.path
  | none => ""

/-!  ## Photo records (src/core/models/photo.go)  -/

/-- The fields of `models.Photo` the verified components read or write.
`Albums` (a Go set map `map[string]bool` holding only `true` entries) is
the list of its keys in insertion order. -/
structure Photo where
  hash : String
  hashError : Bool
  srcPath : String
  jsonPath : String
  albums : List String
  finalAlbum : String
  dateAccuracy : Int
  size : Int
deriving DecidableEq, Repr

/-- The Go zero value of `models.Photo`. -/
def defaultPhoto : Photo :=
  { hash := "", hashError := false, srcPath := "", jsonPath := "",
    albums := [], finalAlbum := "", dateAccuracy := 0, size := 0 }

/-!  ## Album assignment (AssignFinalAlbums)  -/

/-- The per-record loop body of `AssignFinalAlbums`: the record's final
album is the first selected name that is one of its memberships, and the
empty string when the selection is empty or no name matches (the field
is reset to "" before the loop). -/
def assignFinalAlbum (selected : List String) (albums : List String) : String :=
  match selected with
  | [] => ""
  | name :: rest => if albums.contains name then name else assignFinalAlbum rest albums

/-- `AssignFinalAlbums` of photo.go (the mutation of each record's
`FinalAlbum`; progress reporting and printing are I/O only). -/
def assignFinalAlbums (selected : List String) (photos : List Photo) : List Photo :=
  photos.map fun p => { p with finalAlbum := assignFinalAlbum selected p.albums }

/-!  ## Association-list models of Go maps  -/

/-- Lookup in an association list (Go map read). -/
def lookupA [DecidableEq K] : List (K × V) → K → Option V
  | [], _ => none
  | (k0, v) :: rest, k => if k0 = k then some v else lookupA rest k

/-- Go map assignment: replace the entry for the key, or append a new
one (insertion-order determinization of the Go map). -/
def setPair [DecidableEq K] : List (K × V) → K → V → List (K × V)
  | [], k, v => [(k, v)]
  | (k0, v0) :: rest, k, v =>
    if k0 = k then (k0, v) :: rest else (k0, v0) :: setPair rest k v

/-- `m[k] = append(m[k], v)` on a Go map of slices. -/
def addTo [DecidableEq K] : List (K × List V) → K → V → List (K × List V)
  | [], k, v => [(k, [v])]
  | (k0, vs) :: rest, k, v =>
    if k0 = k then (k0, vs ++ [v]) :: rest else (k0, vs) :: addTo rest k v

/-!  ## Dedup engine (src/core/dedup/group.go)  -/

/-- The `sizeGroups` map of `GroupIdentical`. -/
def sizeGroupsOf (photos : List Photo) : List (Int × List Photo) :=
  photos.foldl (fun m p => addTo m p.size p) []

/-- The per-photo body of the re-hashing loop of `GroupIdentical`:
produces the hash-group key and the (possibly mutated) photo.  `oracle`
abstracts `HashFile` (`none` is an I/O error). -/
def finalizeOne (oracle : String → Option String) (size : Int) (p : Photo) :
    String × Photo :=
  if p.hashError then ("nohash:" ++ toString size ++ ":" ++ p.srcPath, p)
  else if p.hash = "" then
    match oracle p.srcPath with
    | none => ("nohash:" ++ toString size ++ ":" ++ p.srcPath, { p with hashError := true })
    | some h => (h, { p with hash := h })
  else (p.hash, p)

/-- The `hashGroups` map built for one multi-member size group. -/
def hashGroupsOf (oracle : String → Option String) (size : Int) (group : List Photo) :
    List (String × List Photo) :=
  group.foldl (fun m p => addTo m (finalizeOne oracle size p).1 (finalizeOne oracle size p).2) []

/-- `GroupIdentical` of group.go: group by size; accept singleton size
groups under a `"<size>bytes"` key; re-partition larger groups by
content hash with hash-failed files under per-path `"nohash:..."` keys. -/
def groupIdentical (oracle : String → Option String) (photos : List Photo) :
    List (String × List Photo) :=
  (sizeGroupsOf photos).foldl
    (fun fin sg =>
      if sg.2.length = 1 then setPair fin (toString sg.1 ++ "bytes") sg.2
      else (hashGroupsOf oracle sg.1 sg.2).foldl (fun fin2 kg => setPair fin2 kg.1 kg.2) fin)
    []

/-- The comparator passed to `sort.Slice` in `chooseBest`, exactly as
written: when the first accuracy is not smaller it falls through to the
path-length comparison (even when the first accuracy is larger). -/
def chooseBestLess (a b : Photo) : Bool :=
  if a.dateAccuracy < b.dateAccuracy then decide (a.dateAccuracy < b.dateAccuracy)
  else decide (goLen a.srcPath < goLen b.srcPath)

/-- One step of Go's insertion sort: the new element sinks from the
right end of the already-processed reversed prefix while it compares
less than its left neighbour. -/
def goInsertR (less : α → α → Bool) (a : α) : List α → List α
  | [] => [a]
  | y :: ys => if less a y then y :: goInsertR less a ys else a :: y :: ys

/-- Go's `sort.Slice` on the slices in play: for slices shorter than 12
elements pdqsort is exactly insertion sort, which this reproduces; for
longer slices Go may order elements of equal rank differently but always
produces a permutation, which is all the general theorems below use. -/
def goInsertionSort (less : α → α → Bool) (l : List α) : List α :=
  l.foldl (fun acc a => (goInsertR less a acc.reverse).reverse) []

/-- `chooseBest` of group.go: first element after the in-place sort. -/
def chooseBest (group : List Photo) : Photo :=
  (goInsertionSort chooseBestLess group).headD defaultPhoto

/-- The multi-member branch of `MergeIdentical` for one group: the group
is sorted in place, `best` is its first element, `best.Albums` is
replaced by a fresh empty map, and then the union loop reads the group —
including `best` itself, whose memberships were just erased. -/
def mergeGroup (group : List Photo) : Photo :=
  match goInsertionSort chooseBestLess group with
  | [] => defaultPhoto
  | best :: rest =>
    let cleared : Photo := { best with albums := [] }
    let unionAlbums :=
      (cleared :: rest).foldl
        (fun acc p => p.albums.foldl (fun a al => if a.contains al then a else a ++ [al]) acc)
        []
    { cleared with albums := unionAlbums }

/-- `MergeIdentical` of group.go (progress reporting is I/O only). -/
def mergeIdentical (oracle : String → Option String) (photos : List Photo) : List Photo :=
  (groupIdentical oracle photos).foldl
    (fun result kg =>
      if kg.2.length = 1 then result ++ [kg.2.headD defaultPhoto]
      else result ++ [mergeGroup kg.2])
    []

/-!  ## Hash cache and registry (photo.go: dedup package parts)  -/

/-- A `hashCacheEntry` of the persisted hash cache. -/
structure HashCacheEntry where
  size : Int
  mtimeNs : Int
  hash : String
deriving DecidableEq, Repr

/-- The `hashCache` wrapper: `files` is `none` when the Go `Files` map
is nil (the zero value `hashCache{}`). -/
structure HashCache where
  files : Option (List (String × HashCacheEntry))
deriving DecidableEq, Repr

/-- The state of the cache file on disk, abstracting `os.ReadFile` plus
`json.Unmarshal`: absent, unreadable (read error other than not-exist),
malformed JSON, or valid with the decoded `files` member (possibly nil). -/
inductive CacheFileState where
  | absent
  | unreadable
  | malformed
  | valid (files : Option (List (String × HashCacheEntry)))
deriving DecidableEq, Repr

/-- `LoadHashCache` of photo.go: the returned cache paired with whether
an error was returned.  An empty path and an absent file give an empty
usable cache; a read or decode error returns the zero value
`hashCache{}`, whose `Files` map is nil. -/
def loadHashCache (path : String) (st : CacheFileState) : HashCache × Bool :=
  if path = "" then ({ files := some [] }, false)
  else
    match st with
    | .absent => ({ files := some [] }, false)
    | .unreadable => ({ files := none }, true)
    | .malformed => ({ files := none }, true)
    | .valid none => ({ files := some [] }, false)
    | .valid (some l) => ({ files := some l }, false)

/-- One scanned (media, sidecar, album) triple. -/
structure FilePair where
  mediaPath : String
  jsonPath : String
  album : String
deriving DecidableEq, Repr

/-- The file-system oracles `BuildRegistry` consults: `stat` gives size
and modification time in nanoseconds (or an error), `hashFile` is
`HashFile` (hex SHA-256 of the content, or an I/O error). -/
structure OsModel where
  stat : String → Option (Int × Int)
  hashFile : String → Option String

/-- The registry mutation at the end of each `BuildRegistry` iteration:
find or create the record for the key, add the album membership, and set
the size. -/
def updateRegistry (reg : List (String × Photo)) (key hash : String) (hashError : Bool)
    (p : FilePair) (size : Int) : List (String × Photo) :=
  let photo :=
    match lookupA reg key with
    | some ph => ph
    | none =>
      { hash := hash, hashError := hashError, srcPath := p.mediaPath,
        jsonPath := p.jsonPath, albums := [], finalAlbum := "",
        dateAccuracy := 0, size := 0 }
  let photo2 :=
    if p.album ≠ "" ∧ photo.albums.contains p.album = false then
      { photo with albums := photo.albums ++ [p.album] }
    else photo
  setPair reg key { photo2 with size := size }

/-- One iteration of the `BuildRegistry` loop.  The state is the cache's
`Files` map (possibly nil) and the registry.  Assigning the fresh cache
entry into a nil `Files` map is a Go runtime panic, modelled as
`Except.error ()`. -/
def buildRegistryStep (os : OsModel)
    (st : Option (List (String × HashCacheEntry)) × List (String × Photo))
    (p : FilePair) :
    Except Unit (Option (List (String × HashCacheEntry)) × List (String × Photo)) :=
  match os.stat p.mediaPath with
  | none => .ok st
  | some (size, mtime) =>
    let cacheHit : String :=
      match st.1 with
      | none => ""
      | some l =>
        match lookupA l p.mediaPath with
        | some e => if e.size = size ∧ e.mtimeNs = mtime ∧ e.hash ≠ "" then e.hash else ""
        | none => ""
    match (if cacheHit = "" then os.hashFile p.mediaPath else some cacheHit) with
    | none =>
      .ok (st.1, updateRegistry st.2 ("nohash:" ++ p.mediaPath) "" true p size)
    | some h =>
      if h = "" then .ok (st.1, updateRegistry st.2 "" "" false p size)
      else
        match st.1 with
        | none => .error ()
        | some l =>
          .ok (some (setPair l p.mediaPath ⟨size, mtime, h⟩),
            updateRegistry st.2 h h false p size)

/-- `BuildRegistry` of photo.go: load the cache (its error is discarded
with `_`), then fold the loop over the scanned pairs; the final cache
save is pure I/O and not modelled.  The result is the registry, or the
runtime panic raised by the nil-map assignment. -/
def buildRegistry (os : OsModel) (pairs : List FilePair) (cachePath : String)
    (st : CacheFileState) : Except Unit (List (String × Photo)) :=
  let c := (loadHashCache cachePath st).1
  (pairs.foldlM (buildRegistryStep os) (c.files, ([] : List (String × Photo)))).map
    (fun s => s.2)

/-!  ## Output pipeline: collision resolution (uniquePath)  -/

/-- The numeric-suffix loop of `uniquePath`: `for i := 1; i < 10000; i++`
try `name-i.ext`, returning the first path not present; exhausting the
range is the "too many name collisions" error.  `ex` abstracts `os.Stat`
existence (stat errors other than not-exist are not modelled). -/
def numericSearch (ex : String → Bool) (dir name ext : String) (i : Nat) : Option String :=
  if i < 10000 then
    let p := goJoin dir (name ++ "-" ++ toString i ++ ext)
    if ex p = false then some p else numericSearch ex dir name ext (i + 1)
  else none
termination_by 10000 - i

/-- `uniquePath` of the output package: the original name if free, else
the hash-suffixed name (first 8 characters of the hash, the whole hash
when it is no longer than 8, skipped entirely for an empty hash), else
the numeric-suffix search. -/
def uniquePath (ex : String → Bool) (dir filename hash : String) : Option String :=
  let path := goJoin dir filename
  if ex path = false then some path
  else
    let ext := goExt filename
    let name := goTrimSuffix filename ext
    let hashPart := if hash = "" then "" else if 8 < goLen hash then goTake hash 8 else hash
    let hashStep : Option String :=
      if hashPart ≠ "" then
        let hp := goJoin dir (name ++ "-" ++ hashPart ++ ext)
        if ex hp = false then some hp else none
      else none
    match hashStep with
    | some p => some p
    | none => numericSearch ex dir name ext 1

/-- Modelled from the spec: the first free numeric-suffix path, phrased
as a search over the explicit index list 1..9999. -/
def firstFreeNumeric (ex : String → Bool) (dir name ext : String) : Option String :=
  ((List.range' 1 9999).find?
      (fun i => !ex (goJoin dir (name ++ "-" ++ toString i ++ ext)))).map
    (fun i => goJoin dir (name ++ "-" ++ toString i ++ ext))

/-- A hexadecimal digit as `hex.EncodeToString` produces them. -/
def isHexChar (c : Char) : Bool :=
  ('0' ≤ c && c ≤ '9') || ('a' ≤ c && c ≤ 'f')

/-- A string of hexadecimal digits (the shape of every `HashFile`
result and of every hash stored by `BuildRegistry`). -/
def isHexStr (s : String) : Bool :=
  s.data.all isHexChar

/-!  ## Claim theorems  -/

/-- The override test of date.go agrees with the claim's arithmetic
condition, given that Go's zero time has year 1. -/
theorem shouldOverrideJSON_iff (nowYear : Int) (jsonTime fileTime : GoTime)
    (hz : fileTime.zeroT = true → fileTime.year = 1) :
    shouldOverrideJSON nowYear jsonTime fileTime = true ↔
      (fileTime.nanos < jsonTime.nanos ∧ 1990 ≤ fileTime.year ∧
        fileTime.year ≤ nowYear + 1) := by
  simp only [shouldOverrideJSON, isReasonable, timeBefore]
  by_cases ha : fileTime.nanos < jsonTime.nanos
  · by_cases h0 : fileTime.zeroT = true
    · have hy := hz h0
      simp [ha, h0, hy] <;> omega
    · have h0' : fileTime.zeroT = false := by
        rcases Bool.eq_false_or_eq_true fileTime.zeroT with h | h
        · exact absurd h h0
        · exact h
      by_cases hb : fileTime.year < 1990
      · simp [ha, h0', hb] <;> omega
      · by_cases hc : fileTime.year > nowYear + 1
        · simp [ha, h0', hb, hc] <;> omega
        · simp [ha, h0', hb, hc] <;> omega
  · simp [ha] <;> omega

/-- C1: with both a sidecar and a filename timestamp available, date
resolution returns the filename timestamp at the "filename" tier exactly
when it is strictly earlier than the sidecar timestamp and its year lies
in [1990, current year + 1], and otherwise the sidecar timestamp at the
"sidecar" tier; a single available source is chosen in the order sidecar
over filename over embedded tag; with no source, no timestamp is
assigned and the tier is unknown.  Stated for both `ExtractBestDate` and
`ExtractBestDateWithCustomAndExclusions`. -/
theorem extractBestDate_precedence (nowYear : Int) (jsonTime fileTime exifTime : GoTime)
    (exifW : GoTime × Bool)
    (hz : fileTime.zeroT = true → fileTime.year = 1) :
    ((fileTime.nanos < jsonTime.nanos ∧ 1990 ≤ fileTime.year ∧
        fileTime.year ≤ nowYear + 1) →
      extractBestDate nowYear jsonTime true fileTime true exifTime true
          = (fileTime, dateAccuracyFilename, true) ∧
      extractBestDate nowYear jsonTime true fileTime true exifTime false
          = (fileTime, dateAccuracyFilename, true) ∧
      extractBestDateWCE nowYear jsonTime true fileTime true exifW
          = (fileTime, dateAccuracyFilename, true, zeroTime, false)) ∧
    (¬ (fileTime.nanos < jsonTime.nanos ∧ 1990 ≤ fileTime.year ∧
        fileTime.year ≤ nowYear + 1) →
      extractBestDate nowYear jsonTime true fileTime true exifTime true
          = (jsonTime, dateAccuracyJSON, true) ∧
      extractBestDate nowYear jsonTime true fileTime true exifTime false
          = (jsonTime, dateAccuracyJSON, true) ∧
      extractBestDateWCE nowYear jsonTime true fileTime true exifW
          = (jsonTime, dateAccuracyJSON, true, zeroTime, false)) ∧
    (∀ hasExif, extractBestDate nowYear jsonTime true fileTime false exifTime hasExif
        = (jsonTime, dateAccuracyJSON, true) ∧
      extractBestDateWCE nowYear jsonTime true fileTime false exifW
        = (jsonTime, dateAccuracyJSON, true, zeroTime, false)) ∧
    (∀ hasExif, extractBestDate nowYear jsonTime false fileTime true exifTime hasExif
        = (fileTime, dateAccuracyFilename, true) ∧
      extractBestDateWCE nowYear jsonTime false fileTime true exifW
        = (fileTime, dateAccuracyFilename, true, zeroTime, false)) ∧
    (extractBestDate nowYear jsonTime false fileTime false exifTime true
        = (exifTime, dateAccuracyExif, true)) ∧
    (exifW.2 = true →
      extractBestDateWCE nowYear jsonTime false fileTime false exifW
        = (exifW.1, dateAccuracyExif, true, exifW.1, true)) ∧
    (extractBestDate nowYear jsonTime false fileTime false exifTime false
        = (zeroTime, dateAccuracyNone, false)) ∧
    (exifW.2 = false →
      extractBestDateWCE nowYear jsonTime false fileTime false exifW
        = (zeroTime, dateAccuracyNone, false, exifW.1, false)) := by
  have hiff := shouldOverrideJSON_iff nowYear jsonTime fileTime hz
  refine ⟨?_, ?_, ?_, ?_, ?_, ?_, ?_, ?_⟩
  · intro hcond
    have hov : shouldOverrideJSON nowYear jsonTime fileTime = true := hiff.mpr hcond
    simp [extractBestDate, extractBestDateWCE, hov]
  · intro hcond
    have hov : shouldOverrideJSON nowYear jsonTime fileTime = false := by
      rcases Bool.eq_false_or_eq_true (shouldOverrideJSON nowYear jsonTime fileTime) with h | h
      · exact absurd (hiff.mp h) hcond
      · exact h
    simp [extractBestDate, extractBestDateWCE, hov]
  · intro hasExif
    simp [extractBestDate, extractBestDateWCE]
  · intro hasExif
    simp [extractBestDate, extractBestDateWCE]
  · simp [extractBestDate]
  · intro h
    simp [extractBestDateWCE, h]
  · simp [extractBestDate]
  · intro h
    simp [extractBestDateWCE, h]

/-- Witness for the C1 theorem at concrete inputs: a 2019 filename time
strictly before a 2020 sidecar time is preferred at the filename tier. -/
theorem extractBestDate_precedence_witness :
    extractBestDate 2025 ⟨1000, 2020, false⟩ true ⟨500, 2019, false⟩ true zeroTime false
      = (⟨500, 2019, false⟩, dateAccuracyFilename, true) :=
  ((extractBestDate_precedence 2025 ⟨1000, 2020, false⟩ ⟨500, 2019, false⟩ zeroTime
      (zeroTime, false) (by intro h; simp at h)).1 (by refine ⟨?_, ?_, ?_⟩ <;> decide)).2.1

/-- C6: filename date guessing with custom patterns and exclusions: an
excluded file is never filename-dated (by custom or built-in rules), and
the custom patterns are tried before the built-in list — a custom match
decides the result regardless of the built-in rules, and the built-in
rules are consulted exactly when no custom pattern matches. -/
theorem guessDateWCE_custom_first_and_exclusions
    (builtin : String → Option GoTime) (custom : List (String → Option GoTime))
    (exclude : List String) (path : String) :
    (isExcluded path exclude = true →
      guessDateFromFilenameWCE builtin custom exclude path = none) ∧
    (isExcluded path exclude = false →
      ∀ t, guessWithPatterns path custom = some t →
        guessDateFromFilenameWCE builtin custom exclude path = some t) ∧
    (isExcluded path exclude = false →
      guessWithPatterns path custom = none →
        guessDateFromFilenameWCE builtin custom exclude path = builtin path) := by
  refine ⟨?_, ?_, ?_⟩
  · intro h
    simp [guessDateFromFilenameWCE, h]
  · intro h t ht
    simp [guessDateFromFilenameWCE, h, ht]
  · intro h hn
    simp [guessDateFromFilenameWCE, h, hn]

/-- Witness for the C6 theorem: a file in the exclusion set gets no
date even when a custom pattern and the built-in rules would both match. -/
theorem guessDateWCE_exclusions_witness :
    guessDateFromFilenameWCE (fun _ => some zeroTime) [fun _ => some zeroTime]
      ["a.jpg"] "/x/a.jpg" = none :=
  (guessDateWCE_custom_first_and_exclusions (fun _ => some zeroTime)
    [fun _ => some zeroTime] ["a.jpg"] "/x/a.jpg").1 (by decide)

/-- The per-record loop of `AssignFinalAlbums` computes the first
selected name among the record's memberships, phrased via `find?`. -/
theorem assignFinalAlbum_eq_find (selected albums : List String) :
    assignFinalAlbum selected albums =
      ((selected.find? fun n => albums.contains n).getD "") := by
  induction selected with
  | nil => simp [assignFinalAlbum]
  | cons name rest ih =>
    by_cases h : name ∈ albums
    · simp [assignFinalAlbum, List.find?, h]
    · simp [assignFinalAlbum, List.find?, h, ih]

/-- C4: after `AssignFinalAlbums`, every record's final album is empty
or one of its memberships, and it equals the first name of the
priority-ordered selection present in the memberships (empty when none
is present or the selection is empty). -/
theorem assignFinalAlbums_exclusive (selected : List String) (photos : List Photo) :
    ∀ p' ∈ assignFinalAlbums selected photos,
      (p'.finalAlbum = "" ∨ p'.finalAlbum ∈ p'.albums) ∧
      p'.finalAlbum = ((selected.find? fun n => p'.albums.contains n).getD "") := by
  intro p' hp'
  rcases List.mem_map.mp hp' with ⟨p, _, rfl⟩
  refine ⟨?_, assignFinalAlbum_eq_find selected p.albums⟩
  rw [assignFinalAlbum_eq_find]
  cases hfind : selected.find? fun n => p.albums.contains n with
  | none => left; rfl
  | some a =>
    right
    have := List.find?_some hfind
    simpa using this

/-- Witness for the C4 theorem: with selection ["B", "A"] and a record
belonging only to "A", the assigned album is "A", a member. -/
theorem assignFinalAlbums_exclusive_witness :
    ((⟨"", false, "", "", ["A"], "A", 0, 0⟩ : Photo).finalAlbum = "" ∨
      (⟨"", false, "", "", ["A"], "A", 0, 0⟩ : Photo).finalAlbum ∈
        (⟨"", false, "", "", ["A"], "A", 0, 0⟩ : Photo).albums) ∧
    (⟨"", false, "", "", ["A"], "A", 0, 0⟩ : Photo).finalAlbum =
      ((["B", "A"].find? fun n =>
          (⟨"", false, "", "", ["A"], "A", 0, 0⟩ : Photo).albums.contains n).getD "") :=
  assignFinalAlbums_exclusive ["B", "A"] [⟨"", false, "", "", ["A"], "", 0, 0⟩]
    ⟨"", false, "", "", ["A"], "A", 0, 0⟩ (by decide)

/-- The Go if-chain of `detectAlbum` agrees with the amended
segment-level description on every segment list. -/
theorem albumFromParts_eq_amended (parts : List String) :
    albumFromParts parts = detectAlbumAmended parts := by
  match parts with
  | [] => simp [albumFromParts, detectAlbumAmended]
  | [a] => simp [albumFromParts, detectAlbumAmended]
  | [a, b] =>
    by_cases hGP : a = "Google Photos"
    · subst hGP
      simp [albumFromParts, detectAlbumAmended]
      decide
    · cases hsw : goStartsWith a "Photos from" <;>
        simp [albumFromParts, detectAlbumAmended, hGP, hsw]
  | a :: b :: c :: rest =>
    by_cases hGP : a = "Google Photos"
    · subst hGP
      cases hsw : goStartsWith b "Photos from" <;>
        simp [albumFromParts, detectAlbumAmended, hsw, Nat.lt_add_right]
    · cases hsw : goStartsWith a "Photos from" <;>
        simp [albumFromParts, detectAlbumAmended, hGP, hsw]

/-- C7 counterexample: a file lying directly under the synthetic
wrapper segment is assigned the album "Google Photos" by the code,
whereas the claim assigns it no album. -/
theorem detectAlbum_wrapper_cex :
    detectAlbum "/t" "/t/Google Photos/a.jpg" = "Google Photos" ∧
    detectAlbumClaim (goSplit (goRel "/t" "/t/Google Photos/a.jpg") '/') = "" := by
  constructor <;> decide

/-- C7 as amended: album detection returns the path segment immediately
under the root, except that a "Photos from" container segment yields no
album, a deeper segment under the "Google Photos" wrapper replaces it,
a file directly under the root gets no album, and a file lying only
under the wrapper gets the wrapper name itself as its album. -/
theorem detectAlbum_amended_spec (root path : String) :
    detectAlbum root path = detectAlbumAmended (goSplit (goRel root path) '/') := by
  unfold detectAlbum
  exact albumFromParts_eq_amended _

/-- C5 divergence, evaluated: two same-content records with date
accuracies 1 and 2, where the accuracy-2 record has the shorter source
path.  The merge picks the accuracy-2 record (the comparator falls
through to path length although the tiers differ) and its album
memberships after the merge are only ["A"] — the representative's own
membership "B" is erased before the union loop reads it, so the result
is neither the best tier nor the full union. -/
theorem mergeIdentical_merge_policy_divergence :
    (mergeIdentical (fun _ => none)
        [{ hash := "ab", hashError := false, srcPath := "aaaaaaaaaa", jsonPath := "",
           albums := ["A"], finalAlbum := "", dateAccuracy := 1, size := 5 },
         { hash := "ab", hashError := false, srcPath := "bbbb", jsonPath := "",
           albums := ["B"], finalAlbum := "", dateAccuracy := 2, size := 5 }]).map
      (fun p => (p.dateAccuracy, p.srcPath, p.albums)) = [(2, "bbbb", ["A"])] := by
  decide

/-- C9 divergence, evaluated: with the cache file unreadable or
malformed, `LoadHashCache` returns the zero cache (nil `Files` map) and
an error; `BuildRegistry` discards the error and panics on the first
successfully hashed file when it assigns into the nil map, instead of
proceeding as with an empty cache — which the absent-file case does. -/
theorem buildRegistry_nil_cache_panic :
    buildRegistry ⟨fun _ => some (3, 7), fun _ => some "ab12"⟩ [⟨"a.jpg", "", ""⟩]
        "c.json" .unreadable = .error () ∧
    buildRegistry ⟨fun _ => some (3, 7), fun _ => some "ab12"⟩ [⟨"a.jpg", "", ""⟩]
        "c.json" .malformed = .error () ∧
    buildRegistry ⟨fun _ => some (3, 7), fun _ => some "ab12"⟩ [⟨"a.jpg", "", ""⟩]
        "c.json" .absent =
      .ok [("ab12", (⟨"ab12", false, "a.jpg", "", [], "", 0, 3⟩ : Photo))] ∧
    loadHashCache "c.json" .absent = ({ files := some [] }, false) ∧
    loadHashCache "c.json" .unreadable = ({ files := none }, true) := by
  refine ⟨?_, ?_, ?_, ?_, ?_⟩ <;> rfl

/-- The numeric-suffix loop, characterized as a search over the
explicit index range. -/
theorem numericSearch_eq_range (ex : String → Bool) (dir name ext : String) :
    ∀ (n i : Nat), 10000 - i = n →
      numericSearch ex dir name ext i =
        ((List.range' i n).find?
            (fun j => !ex (goJoin dir (name ++ "-" ++ toString j ++ ext)))).map
          (fun j => goJoin dir (name ++ "-" ++ toString j ++ ext)) := by
  intro n
  induction n with
  | zero =>
    intro i hi
    have h : ¬ i < 10000 := by omega
    unfold numericSearch
    simp [h]
  | succ n ih =>
    intro i hi
    have h : i < 10000 := by omega
    unfold numericSearch
    rw [List.range'_succ]
    cases hex : ex (goJoin dir (name ++ "-" ++ toString i ++ ext)) with
    | false =>
      rw [List.find?_cons_of_pos
        (p := fun j => !ex (goJoin dir (name ++ "-" ++ toString j ++ ext))) _ (by simp [hex])]
      simp [h, hex]
    | true =>
      rw [List.find?_cons_of_neg
        (p := fun j => !ex (goJoin dir (name ++ "-" ++ toString j ++ ext))) _ (by simp [hex])]
      simp only [h, if_true, hex]
      simp only [Bool.true_eq_false, if_false]
      exact ih (i + 1) (by omega)

/-- The loop started at 1 is exactly the spec-side first-free search. -/
theorem numericSearch_one (ex : String → Bool) (dir name ext : String) :
    numericSearch ex dir name ext 1 = firstFreeNumeric ex dir name ext :=
  numericSearch_eq_range ex dir name ext 9999 1 rfl

/-- A successful numeric search returns a free path of the stated
suffix shape with index in 1..9999. -/
theorem numericSearch_one_some (ex : String → Bool) (dir name ext p : String)
    (h : numericSearch ex dir name ext 1 = some p) :
    ex p = false ∧ ∃ i, 1 ≤ i ∧ i ≤ 9999 ∧
      p = goJoin dir (name ++ "-" ++ toString i ++ ext) := by
  rw [numericSearch_one, firstFreeNumeric] at h
  cases hf : (List.range' 1 9999).find?
      (fun j => !ex (goJoin dir (name ++ "-" ++ toString j ++ ext))) with
  | none => rw [hf] at h; simp at h
  | some j =>
    rw [hf] at h
    simp only [Option.map_some'] at h
    have hmem := List.mem_of_find?_eq_some hf
    have hpred := List.find?_some hf
    have hj : 1 ≤ j ∧ j < 1 + 9999 := by
      have := List.mem_range'_1.mp hmem
      omega
    obtain rfl := Option.some.inj h
    exact ⟨by simpa using hpred, j, hj.1, by omega, rfl⟩

/-- The numeric search fails exactly when every candidate in 1..9999 is
taken. -/
theorem numericSearch_one_none (ex : String → Bool) (dir name ext : String) :
    numericSearch ex dir name ext 1 = none ↔
      ∀ i, 1 ≤ i → i ≤ 9999 →
        ex (goJoin dir (name ++ "-" ++ toString i ++ ext)) = true := by
  rw [numericSearch_one, firstFreeNumeric]
  rw [Option.map_eq_none', List.find?_eq_none]
  constructor
  · intro h i h1 h2
    have := h i (List.mem_range'_1.mpr ⟨h1, by omega⟩)
    simpa using this
  · intro h j hj
    have := List.mem_range'_1.mp hj
    simpa using h j this.1 (by omega)

/-- The hash-suffix part is nonempty exactly when the hash is. -/
theorem hashPart_ne_empty (hash : String) (h : hash ≠ "") :
    (if 8 < goLen hash then goTake hash 8 else hash) ≠ "" := by
  by_cases hl : 8 < goLen hash
  · simp only [hl, if_true]
    intro hcon
    have h2 : hash.data.take 8 = [] := by
      have : (goTake hash 8).data = ("" : String).data := by rw [hcon]
      exact this
    have h3 := congrArg List.length h2
    simp only [List.length_take, List.length_nil] at h3
    rw [goLen] at hl
    omega
  · simpa [hl] using h

/-- Every path `uniquePath` returns is free in the given state. -/
theorem uniquePath_fresh (ex : String → Bool) (dir filename hash p : String)
    (h : uniquePath ex dir filename hash = some p) : ex p = false := by
  simp only [uniquePath] at h
  cases hex : ex (goJoin dir filename) with
  | false => rw [hex] at h; simp at h; rw [← h]; exact hex
  | true =>
    rw [hex] at h
    simp only [Bool.true_eq_false, if_false] at h
    by_cases hp : (if hash = "" then ""
        else if 8 < goLen hash then goTake hash 8 else hash) ≠ ""
    · rw [if_pos hp] at h
      cases hhp : ex (goJoin dir
          (goTrimSuffix filename (goExt filename) ++ "-" ++
            (if hash = "" then "" else if 8 < goLen hash then goTake hash 8 else hash) ++
            goExt filename)) with
      | false =>
        rw [hhp] at h
        simp at h
        rw [← h]
        exact hhp
      | true =>
        rw [hhp] at h
        simp only [Bool.true_eq_false, if_false] at h
        exact (numericSearch_one_some ex dir _ _ p h).1
    · rw [if_neg hp] at h
      exact (numericSearch_one_some ex dir _ _ p h).1

/-- C3: collision resolution is deterministic (a pure function of the
directory state) and ordered.  Writing the hash-suffixed candidate as
`hp := dir/(name-"-"-(first 8 of hash, whole hash if no longer)-ext)`:
the original name is used when free; otherwise `hp` when the hash is
nonempty and `hp` is free; otherwise the first free numeric suffix in
1..9999; failure occurs exactly when the original, the hash candidate
(when applicable) and all 9999 numeric candidates are taken; every
returned path is free, so a second resolution performed after the first
path has come into existence returns a different path. -/
theorem uniquePath_ordered (ex : String → Bool) (dir filename hash : String) :
    (ex (goJoin dir filename) = false →
      uniquePath ex dir filename hash = some (goJoin dir filename)) ∧
    (ex (goJoin dir filename) = true → hash ≠ "" →
      ex (goJoin dir (goTrimSuffix filename (goExt filename) ++ "-" ++
          (if 8 < goLen hash then goTake hash 8 else hash) ++ goExt filename)) = false →
      uniquePath ex dir filename hash =
        some (goJoin dir (goTrimSuffix filename (goExt filename) ++ "-" ++
          (if 8 < goLen hash then goTake hash 8 else hash) ++ goExt filename))) ∧
    (ex (goJoin dir filename) = true →
      (hash = "" ∨ ex (goJoin dir (goTrimSuffix filename (goExt filename) ++ "-" ++
          (if 8 < goLen hash then goTake hash 8 else hash) ++ goExt filename)) = true) →
      uniquePath ex dir filename hash =
        firstFreeNumeric ex dir (goTrimSuffix filename (goExt filename)) (goExt filename)) ∧
    (∀ p, uniquePath ex dir filename hash = some p → ex p = false) ∧
    (uniquePath ex dir filename hash = none ↔
      ex (goJoin dir filename) = true ∧
      (hash ≠ "" → ex (goJoin dir (goTrimSuffix filename (goExt filename) ++ "-" ++
          (if 8 < goLen hash then goTake hash 8 else hash) ++ goExt filename)) = true) ∧
      ∀ i, 1 ≤ i → i ≤ 9999 →
        ex (goJoin dir (goTrimSuffix filename (goExt filename) ++ "-" ++ toString i ++
          goExt filename)) = true) ∧
    (∀ (ex2 : String → Bool) (hash2 p1 p2 : String),
      uniquePath ex dir filename hash = some p1 →
      uniquePath ex2 dir filename hash2 = some p2 →
      ex2 p1 = true → p1 ≠ p2) := by
  have e1 : ex (goJoin dir filename) = false →
      uniquePath ex dir filename hash = some (goJoin dir filename) := by
    intro hex
    simp [uniquePath, hex]
  have e2 : ex (goJoin dir filename) = true → hash ≠ "" →
      ex (goJoin dir (goTrimSuffix filename (goExt filename) ++ "-" ++
          (if 8 < goLen hash then goTake hash 8 else hash) ++ goExt filename)) = false →
      uniquePath ex dir filename hash =
        some (goJoin dir (goTrimSuffix filename (goExt filename) ++ "-" ++
          (if 8 < goLen hash then goTake hash 8 else hash) ++ goExt filename)) := by
    intro hex hh hfree
    simp [uniquePath, hex, hh, hashPart_ne_empty hash hh, hfree]
  have e3 : ex (goJoin dir filename) = true →
      (hash = "" ∨ ex (goJoin dir (goTrimSuffix filename (goExt filename) ++ "-" ++
          (if 8 < goLen hash then goTake hash 8 else hash) ++ goExt filename)) = true) →
      uniquePath ex dir filename hash =
        firstFreeNumeric ex dir (goTrimSuffix filename (goExt filename)) (goExt filename) := by
    intro hex hor
    rw [← numericSearch_one]
    rcases hor with hh | htaken
    · simp [uniquePath, hex, hh]
    · by_cases hh : hash = ""
      · simp [uniquePath, hex, hh]
      · simp [uniquePath, hex, hh, hashPart_ne_empty hash hh, htaken]
  refine ⟨e1, e2, e3, fun p => uniquePath_fresh ex dir filename hash p, ?_, ?_⟩
  · constructor
    · intro hnone
      cases hex : ex (goJoin dir filename) with
      | false => rw [e1 hex] at hnone; simp at hnone
      | true =>
        refine ⟨rfl, ?_, ?_⟩
        · intro hh
          cases hhp : ex (goJoin dir (goTrimSuffix filename (goExt filename) ++ "-" ++
              (if 8 < goLen hash then goTake hash 8 else hash) ++ goExt filename)) with
          | false => rw [e2 hex hh hhp] at hnone; simp at hnone
          | true => rfl
        · intro i h1 h2
          by_cases hh : hash = ""
          · rw [e3 hex (Or.inl hh)] at hnone
            rw [← numericSearch_one] at hnone
            exact (numericSearch_one_none ex dir _ _).mp hnone i h1 h2
          · cases hhp : ex (goJoin dir (goTrimSuffix filename (goExt filename) ++ "-" ++
                (if 8 < goLen hash then goTake hash 8 else hash) ++ goExt filename)) with
            | false => rw [e2 hex hh hhp] at hnone; simp at hnone
            | true =>
              rw [e3 hex (Or.inr hhp)] at hnone
              rw [← numericSearch_one] at hnone
              exact (numericSearch_one_none ex dir _ _).mp hnone i h1 h2
    · rintro ⟨hex, hhp, hall⟩
      by_cases hh : hash = ""
      · rw [e3 hex (Or.inl hh), ← numericSearch_one]
        exact (numericSearch_one_none ex dir _ _).mpr hall
      · rw [e3 hex (Or.inr (hhp hh)), ← numericSearch_one]
        exact (numericSearch_one_none ex dir _ _).mpr hall
  · intro ex2 hash2 p1 p2 h1 h2 htaken
    intro hcon
    have := uniquePath_fresh ex2 dir filename hash2 p2 h2
    rw [← hcon] at this
    rw [htaken] at this
    simp at this

/-- Witness for the C3 theorem: with only `d/a.jpg` taken, the resolver
appends the first 8 characters of the hash. -/
theorem uniquePath_ordered_witness :
    uniquePath (fun p => p == "d/a.jpg") "d" "a.jpg" "0123456789abcdef"
      = some "d/a-01234567.jpg" :=
  ((uniquePath_ordered (fun p => p == "d/a.jpg") "d" "a.jpg" "0123456789abcdef").2.1
    (by decide) (by decide) (by decide)).trans (by decide)

/-- Membership after a Go map assignment: an entry is an old one or the
assigned pair. -/
theorem setPair_mem {K V : Type} [DecidableEq K] (m : List (K × V)) (k : K) (v : V) :
    ∀ e ∈ setPair m k v, e ∈ m ∨ e = (k, v) := by
  induction m with
  | nil =>
    intro e he
    simp [setPair] at he
    right
    exact he
  | cons kv rest ih =>
    obtain ⟨k0, v0⟩ := kv
    intro e he
    by_cases hk : k0 = k
    · simp only [setPair, if_pos hk] at he
      rcases List.mem_cons.mp he with he | he
      · right
        rw [he, hk]
      · left
        exact List.mem_cons_of_mem _ he
    · simp only [setPair, if_neg hk] at he
      rcases List.mem_cons.mp he with he | he
      · left
        rw [he]
        exact List.mem_cons_self _ _
      · rcases ih e he with h1 | h1
        · left
          exact List.mem_cons_of_mem _ h1
        · right
          exact h1

/-- A successful Go map lookup yields an entry of the map. -/
theorem lookupA_mem {K V : Type} [DecidableEq K] (m : List (K × V)) (k : K) (v : V)
    (h : lookupA m k = some v) : (k, v) ∈ m := by
  induction m with
  | nil => simp [lookupA] at h
  | cons kv rest ih =>
    obtain ⟨k0, v0⟩ := kv
    by_cases hk : k0 = k
    · simp only [lookupA, if_pos hk] at h
      obtain rfl := Option.some.inj h
      rw [← hk]
      exact List.mem_cons_self _ _
    · simp only [lookupA, if_neg hk] at h
      exact List.mem_cons_of_mem _ (ih h)

/-- The registry update of `BuildRegistry` preserves the invariant that
hash-failed records carry an empty hash, provided the inserted record
satisfies it. -/
theorem updateRegistry_hashError_inv (reg : List (String × Photo)) (key hash : String)
    (hErr : Bool) (p : FilePair) (size : Int)
    (hP : ∀ kp ∈ reg, kp.2.hashError = true → kp.2.hash = "")
    (hk : hErr = true → hash = "") :
    ∀ kp ∈ updateRegistry reg key hash hErr p size,
      kp.2.hashError = true → kp.2.hash = "" := by
  intro kp hkp herr
  unfold updateRegistry at hkp
  rcases setPair_mem _ _ _ kp hkp with hold | hnew
  · exact hP kp hold herr
  · cases hlook : lookupA reg key with
    | some ph =>
      rw [hlook] at hnew
      have hm := lookupA_mem reg key ph hlook
      have hph := hP (key, ph) hm
      by_cases hc : p.album ≠ "" ∧ ph.albums.contains p.album = false
      · rw [if_pos hc] at hnew
        rw [hnew] at herr ⊢
        exact hph herr
      · rw [if_neg hc] at hnew
        rw [hnew] at herr ⊢
        exact hph herr
    | none =>
      rw [hlook] at hnew
      by_cases hc : p.album ≠ "" ∧
          (Photo.mk hash hErr p.mediaPath p.jsonPath [] "" 0 0).albums.contains p.album = false
      · rw [if_pos hc] at hnew
        rw [hnew] at herr ⊢
        exact hk herr
      · rw [if_neg hc] at hnew
        rw [hnew] at herr ⊢
        exact hk herr

/-- One `BuildRegistry` iteration preserves the hash-failed invariant. -/
theorem buildRegistryStep_hashError_inv (os : OsModel)
    (st : Option (List (String × HashCacheEntry)) × List (String × Photo)) (p : FilePair)
    (st' : Option (List (String × HashCacheEntry)) × List (String × Photo))
    (hstep : buildRegistryStep os st p = .ok st')
    (hP : ∀ kp ∈ st.2, kp.2.hashError = true → kp.2.hash = "") :
    ∀ kp ∈ st'.2, kp.2.hashError = true → kp.2.hash = "" := by
  unfold buildRegistryStep at hstep
  cases hstat : os.stat p.mediaPath with
  | none =>
    rw [hstat] at hstep
    obtain rfl := Except.ok.inj hstep
    exact hP
  | some sz =>
    obtain ⟨size, mtime⟩ := sz
    rw [hstat] at hstep
    dsimp only at hstep
    split at hstep
    · obtain rfl := Except.ok.inj hstep
      exact updateRegistry_hashError_inv _ _ _ _ _ _ hP (fun _ => rfl)
    · split at hstep
      · obtain rfl := Except.ok.inj hstep
        exact updateRegistry_hashError_inv _ _ _ _ _ _ hP (by intro h; cases h)
      · split at hstep
        · cases hstep
        · obtain rfl := Except.ok.inj hstep
          exact updateRegistry_hashError_inv _ _ _ _ _ _ hP (by intro h; cases h)

/-- The `BuildRegistry` fold preserves the hash-failed invariant. -/
theorem buildRegistry_fold_hashError_inv (os : OsModel) :
    ∀ (pairs : List FilePair)
      (st res : Option (List (String × HashCacheEntry)) × List (String × Photo)),
      List.foldlM (buildRegistryStep os) st pairs = .ok res →
      (∀ kp ∈ st.2, kp.2.hashError = true → kp.2.hash = "") →
      ∀ kp ∈ res.2, kp.2.hashError = true → kp.2.hash = "" := by
  intro pairs
  induction pairs with
  | nil =>
    intro st res h hP
    simp only [List.foldlM_nil] at h
    obtain rfl := Except.ok.inj h
    exact hP
  | cons p ps ih =>
    intro st res h hP
    rw [List.foldlM_cons] at h
    cases hstep : buildRegistryStep os st p with
    | error e =>
      rw [hstep] at h
      simp [Bind.bind, Except.bind] at h
    | ok st1 =>
      rw [hstep] at h
      simp only [Bind.bind, Except.bind] at h
      exact ih st1 res h (buildRegistryStep_hashError_inv os st p st1 hstep hP)

/-- C10: for an empty content hash, `uniquePath` skips the hash-suffix
step entirely — when the original name is taken it proceeds directly to
the numeric suffixes, so the returned path is the original name or a
numeric-suffix name, never a hash-suffixed one; and every hash-failed
record `BuildRegistry` produces indeed has an empty hash. -/
theorem uniquePath_empty_hash (ex : String → Bool) (dir filename : String) :
    (∀ p, uniquePath ex dir filename "" = some p →
      p = goJoin dir filename ∨
        ∃ i, 1 ≤ i ∧ i ≤ 9999 ∧
          p = goJoin dir (goTrimSuffix filename (goExt filename) ++ "-" ++ toString i ++
            goExt filename)) ∧
    (ex (goJoin dir filename) = true →
      uniquePath ex dir filename "" =
        numericSearch ex dir (goTrimSuffix filename (goExt filename)) (goExt filename) 1) ∧
    (∀ (os : OsModel) (pairs : List FilePair) (cachePath : String) (cst : CacheFileState)
        (reg : List (String × Photo)),
      buildRegistry os pairs cachePath cst = .ok reg →
      ∀ kp ∈ reg, kp.2.hashError = true → kp.2.hash = "") := by
  refine ⟨?_, ?_, ?_⟩
  · intro p hp
    cases hex : ex (goJoin dir filename) with
    | false =>
      simp only [uniquePath, hex] at hp
      simp at hp
      left
      exact hp.symm
    | true =>
      right
      simp only [uniquePath, hex] at hp
      simp at hp
      obtain ⟨hfree, i, h1, h2, hi⟩ := numericSearch_one_some ex dir _ _ p hp
      exact ⟨i, h1, h2, hi⟩
  · intro hex
    simp [uniquePath, hex]
  · intro os pairs cachePath cst reg hreg
    simp only [buildRegistry] at hreg
    cases hfold : List.foldlM (buildRegistryStep os)
        (((loadHashCache cachePath cst).1).files, ([] : List (String × Photo))) pairs with
    | error e =>
      rw [hfold] at hreg
      simp [Except.map] at hreg
    | ok res =>
      rw [hfold] at hreg
      simp only [Except.map] at hreg
      obtain rfl := Except.ok.inj hreg
      exact buildRegistry_fold_hashError_inv os pairs _ res hfold (by intro kp h; simp at h)

/-- Witness for the C10 theorem: with the original name taken and an
empty hash, the resolver goes straight to `a-1.jpg`. -/
theorem uniquePath_empty_hash_witness :
    uniquePath (fun p => p == "d/a.jpg") "d" "a.jpg" "" =
      numericSearch (fun p => p == "d/a.jpg") "d"
        (goTrimSuffix "a.jpg" (goExt "a.jpg")) (goExt "a.jpg") 1 :=
  (uniquePath_empty_hash (fun p => p == "d/a.jpg") "d" "a.jpg").2.1 (by decide)

/-- C8 counterexample: the sidecar title "IMG_12345.jpg" does not have
its name-minus-extension a prefix of the media basename "IMG_1", so
under the claim's relation no sidecar qualifies and no match results —
but the code checks the reverse relation (media basename a prefix of the
title) and selects it. -/
theorem pickPrefixCandidate_direction_cex :
    pickPrefixCandidate [⟨"IMG_12345.jpg", "j1"⟩] "/x/IMG_1.jpg" = "j1" ∧
    pickPrefixClaim [⟨"IMG_12345.jpg", "j1"⟩] "/x/IMG_1.jpg" = "" := by
  constructor <;> decide

/-- Combine the running minimum with one more element: the new element
wins only when strictly shorter. -/
def combineMin (len : α → Nat) (o : Option α) (x : α) : α :=
  match o with
  | none => x
  | some b => if len x < len b then x else b

/-- Appending one element to a first-minimum search. -/
theorem minByFirst_append (len : α → Nat) (l : List α) (x : α) :
    minByFirst len (l ++ [x]) = some (combineMin len (minByFirst len l) x) := by
  induction l with
  | nil => simp [minByFirst, combineMin]
  | cons a l ih =>
    rw [List.cons_append]
    show (match minByFirst len (l ++ [x]) with
      | none => some a
      | some b => if len b < len a then some b else some a) =
      some (combineMin len (minByFirst len (a :: l)) x)
    rw [ih]
    cases hl : minByFirst len l with
    | none =>
      simp only [combineMin, minByFirst, hl]
      by_cases h1 : len x < len a <;> simp [h1]
    | some b =>
      simp only [combineMin, minByFirst, hl]
      by_cases h1 : len x < len b
      · by_cases h2 : len b < len a
        · have h3 : len x < len a := by omega
          simp [h1, h2, h3]
        · by_cases h3 : len x < len a <;> simp [h1, h2, h3]
      · by_cases h2 : len b < len a
        · simp [h1, h2]
        · have h3 : ¬ len x < len a := by omega
          simp [h1, h2, h3]

/-- The first-minimum element is an element. -/
theorem minByFirst_mem (len : α → Nat) (l : List α) (a : α)
    (h : minByFirst len l = some a) : a ∈ l := by
  induction l with
  | nil => simp [minByFirst] at h
  | cons x l ih =>
    cases hl : minByFirst len l with
    | none =>
      simp only [minByFirst, hl] at h
      obtain rfl := Option.some.inj h
      exact List.mem_cons_self _ _
    | some b =>
      simp only [minByFirst, hl] at h
      by_cases hc : len b < len x
      · rw [if_pos hc] at h
        obtain rfl := Option.some.inj h
        exact List.mem_cons_of_mem _ (ih hl)
      · rw [if_neg hc] at h
        obtain rfl := Option.some.inj h
        exact List.mem_cons_self _ _

/-- A non-qualifying entry leaves the loop state unchanged. -/
theorem prefixStep_notqual (ext baseNoExt : String) (st : String × Nat)
    (x : JsonTitleEntry) (hq : prefixQualAmended ext baseNoExt x = false) :
    prefixStep ext baseNoExt st x = st := by
  by_cases h1 : ext = ""
  · simp [prefixStep, h1]
  · cases h2 : goEndsWith (goToLower x.title) ext with
    | false => simp [prefixStep, h1, h2]
    | true =>
      have h3 : goStartsWith (goTrimSuffix (goToLower x.title) ext) baseNoExt = false := by
        simpa [prefixQualAmended, h1, h2] using hq
      simp [prefixStep, h1, h2, h3]

/-- A qualifying entry updates the loop state exactly when the state is
empty or the entry's title base is strictly shorter. -/
theorem prefixStep_qual (ext baseNoExt : String) (st : String × Nat)
    (x : JsonTitleEntry) (hq : prefixQualAmended ext baseNoExt x = true) :
    prefixStep ext baseNoExt st x =
      if st.1 = "" ∨ goLen (goTrimSuffix (goToLower x.title) ext) < st.2
      then (x.path, goLen (goTrimSuffix (goToLower x.title) ext)) else st := by
  have hq' := hq
  simp only [prefixQualAmended, Bool.and_eq_true] at hq'
  obtain ⟨⟨h1, h2⟩, h3⟩ := hq'
  have h1' : ¬ ext = "" := by simpa using h1
  simp [prefixStep, h1', h2, h3]

/-- The fold of `pickPrefixCandidate` computes the first minimum over
the qualifying entries (with the code's prefix direction), given that
entry paths are nonempty (the `best == ""` sentinel of the loop). -/
theorem prefixFold_inv (ext baseNoExt : String) (entries : List JsonTitleEntry)
    (hp : ∀ e ∈ entries, e.path ≠ "") :
    match minByFirst (fun e => goLen (goTrimSuffix (goToLower e.title) ext))
        (entries.filter (prefixQualAmended ext baseNoExt)) with
    | none => entries.foldl (prefixStep ext baseNoExt) ("", 0) = ("", 0)
    | some b => entries.foldl (prefixStep ext baseNoExt) ("", 0) =
        (b.path, goLen (goTrimSuffix (goToLower b.title) ext)) := by
  induction entries using List.reverseRecOn with
  | nil => simp [minByFirst]
  | append_singleton l x ih =>
    have hpl : ∀ e ∈ l, e.path ≠ "" := fun e he => hp e (List.mem_append_left _ he)
    have hpx : x.path ≠ "" := hp x (List.mem_append_right _ (List.mem_singleton_self x))
    have ih' := ih hpl
    rw [List.foldl_append, List.foldl_cons, List.foldl_nil, List.filter_append]
    cases hq : prefixQualAmended ext baseNoExt x with
    | false =>
      have hfx : List.filter (prefixQualAmended ext baseNoExt) [x] = [] := by
        simp [List.filter, hq]
      rw [hfx, List.append_nil]
      cases hmin : minByFirst (fun e => goLen (goTrimSuffix (goToLower e.title) ext))
          (l.filter (prefixQualAmended ext baseNoExt)) with
      | none =>
        rw [hmin] at ih'
        simp only [hmin]
        rw [ih', prefixStep_notqual ext baseNoExt _ x hq]
      | some b =>
        rw [hmin] at ih'
        simp only [hmin]
        rw [ih', prefixStep_notqual ext baseNoExt _ x hq]
    | true =>
      have hfx : List.filter (prefixQualAmended ext baseNoExt) [x] = [x] := by
        simp [List.filter, hq]
      rw [hfx, minByFirst_append]
      cases hmin : minByFirst (fun e => goLen (goTrimSuffix (goToLower e.title) ext))
          (l.filter (prefixQualAmended ext baseNoExt)) with
      | none =>
        rw [hmin] at ih'
        simp only [combineMin]
        rw [ih', prefixStep_qual ext baseNoExt _ x hq]
        simp
      | some b =>
        rw [hmin] at ih'
        have hbmem : b ∈ l :=
          List.mem_of_mem_filter (minByFirst_mem _ _ b hmin)
        have hbpath : b.path ≠ "" := hpl b hbmem
        simp only [combineMin]
        rw [ih', prefixStep_qual ext baseNoExt _ x hq]
        by_cases hlt : goLen (goTrimSuffix (goToLower x.title) ext) <
            goLen (goTrimSuffix (goToLower b.title) ext)
        · simp [hbpath, hlt]
        · simp [hbpath, hlt]

/-- C8 as amended: the fallback sidecar matcher selects among entries
whose (lowercased) declared title ends with the media extension and
whose title minus that extension has the media basename as a prefix (the
reverse of the claim's direction), picking the first shortest such title
base; it returns no match when no entry qualifies.  Stated as equality
with the spec-side selection, for entries with nonempty paths (real
sidecar paths are never empty; an empty path would collide with the
loop's sentinel). -/
theorem pickPrefixCandidate_amended (entries : List JsonTitleEntry) (mediaPath : String)
    (hp : ∀ e ∈ entries, e.path ≠ "") :
    pickPrefixCandidate entries mediaPath = pickPrefixAmended entries mediaPath := by
  cases entries with
  | nil => simp [pickPrefixCandidate, pickPrefixAmended, minByFirst]
  | cons e0 rest =>
    have hinv := prefixFold_inv (goToLower (goExt (goBase mediaPath)))
      (goToLower (stripExt (goBase mediaPath))) (e0 :: rest) hp
    simp only [pickPrefixCandidate, pickPrefixAmended, List.length_cons]
    rw [if_neg (by simp)]
    cases hmin : minByFirst
        (fun e => goLen (goTrimSuffix (goToLower e.title) (goToLower (goExt (goBase mediaPath)))))
        ((e0 :: rest).filter (prefixQualAmended (goToLower (goExt (goBase mediaPath)))
          (goToLower (stripExt (goBase mediaPath))))) with
    | none =>
      rw [hmin] at hinv
      rw [hinv]
    | some b =>
      rw [hmin] at hinv
      rw [hinv]

/-- Witness for the C8 amended theorem at a concrete input: the code's
pick and the amended spec-side pick agree and select the sidecar. -/
theorem pickPrefixCandidate_amended_witness :
    pickPrefixCandidate [⟨"IMG_12345.jpg", "j1"⟩] "/x/IMG_1.jpg" =
      pickPrefixAmended [⟨"IMG_12345.jpg", "j1"⟩] "/x/IMG_1.jpg" :=
  pickPrefixCandidate_amended [⟨"IMG_12345.jpg", "j1"⟩] "/x/IMG_1.jpg" (by decide)

/-!  ## C2 infrastructure: invariants of the grouping maps  -/

/-- All values stored in an association list of groups. -/
def flatVals {K V : Type} (m : List (K × List V)) : List V :=
  (m.map Prod.snd).flatten

/-- `addTo` preserves a per-entry membership invariant. -/
theorem addTo_inv {K V : Type} [DecidableEq K] (Q : K → V → Prop)
    (m : List (K × List V)) (k : K) (v : V)
    (hm : ∀ kg ∈ m, ∀ q ∈ kg.2, Q kg.1 q) (hv : Q k v) :
    ∀ kg ∈ addTo m k v, ∀ q ∈ kg.2, Q kg.1 q := by
  induction m with
  | nil =>
    intro kg hkg q hq
    simp only [addTo] at hkg
    rcases List.mem_singleton.mp hkg with rfl
    rcases List.mem_singleton.mp hq with rfl
    exact hv
  | cons e rest ih =>
    obtain ⟨k0, vs⟩ := e
    intro kg hkg q hq
    by_cases hk : k0 = k
    · simp only [addTo, if_pos hk] at hkg
      rcases List.mem_cons.mp hkg with rfl | hkg
      · rcases List.mem_append.mp hq with hq | hq
        · exact hm (k0, vs) (List.mem_cons_self _ _) q hq
        · rcases List.mem_singleton.mp hq with rfl
          rw [hk]
          exact hv
      · exact hm kg (List.mem_cons_of_mem _ hkg) q hq
    · simp only [addTo, if_neg hk] at hkg
      rcases List.mem_cons.mp hkg with rfl | hkg
      · exact hm (k0, vs) (List.mem_cons_self _ _) q hq
      · exact ih (fun e he => hm e (List.mem_cons_of_mem _ he)) kg hkg q hq

/-- `addTo` appends the new value to the flattened multiset of values. -/
theorem addTo_flat_perm {K V : Type} [DecidableEq K] (m : List (K × List V)) (k : K) (v : V) :
    (flatVals (addTo m k v)).Perm (flatVals m ++ [v]) := by
  induction m with
  | nil => simp [addTo, flatVals]
  | cons e rest ih =>
    obtain ⟨k0, vs⟩ := e
    by_cases hk : k0 = k
    · simp only [addTo, if_pos hk, flatVals, List.map_cons, List.flatten_cons]
      rw [List.append_assoc, List.append_assoc]
      exact List.Perm.append_left vs List.perm_append_comm
    · simp only [addTo, if_neg hk, flatVals, List.map_cons, List.flatten_cons]
      have h1 : (vs ++ flatVals (addTo rest k v)).Perm (vs ++ (flatVals rest ++ [v])) :=
        List.Perm.append_left vs ih
      rw [← List.append_assoc] at h1
      exact h1

/-- `addTo` keeps the keys without duplicates. -/
theorem addTo_keys_nodup {K V : Type} [DecidableEq K] (m : List (K × List V)) (k : K) (v : V)
    (h : (m.map Prod.fst).Nodup) : ((addTo m k v).map Prod.fst).Nodup := by
  induction m with
  | nil => simp [addTo]
  | cons e rest ih =>
    obtain ⟨k0, vs⟩ := e
    by_cases hk : k0 = k
    · simpa only [addTo, if_pos hk, List.map_cons] using h
    · simp only [addTo, if_neg hk, List.map_cons, List.nodup_cons] at h ⊢
      refine ⟨?_, ih h.2⟩
      intro hcon
      have : k0 ∈ (rest.map Prod.fst) ∨ k0 = k := by
        clear h ih
        induction rest with
        | nil =>
          simp [addTo] at hcon
          right
          exact hcon
        | cons e2 rest2 ih2 =>
          obtain ⟨k2, vs2⟩ := e2
          by_cases hk2 : k2 = k
          · simp only [addTo, if_pos hk2, List.map_cons] at hcon
            rcases List.mem_cons.mp hcon with rfl | hcon
            · left; simp
            · left; simp [hcon]
          · simp only [addTo, if_neg hk2, List.map_cons] at hcon
            rcases List.mem_cons.mp hcon with rfl | hcon
            · left; simp
            · rcases ih2 hcon with h2 | h2
              · left; simp [h2]
              · right; exact h2
      rcases this with h2 | h2
      · exact h.1 h2
      · exact hk h2

/-- A fold of `addTo` steps satisfies a per-entry invariant when every
pushed pair does. -/
theorem foldl_addTo_inv {α K V : Type} [DecidableEq K] (key : α → K) (val : α → V)
    (Q : K → V → Prop) :
    ∀ (l : List α), (∀ p ∈ l, Q (key p) (val p)) →
      ∀ m0, (∀ kg ∈ m0, ∀ q ∈ kg.2, Q kg.1 q) →
        ∀ kg ∈ l.foldl (fun m p => addTo m (key p) (val p)) m0, ∀ q ∈ kg.2, Q kg.1 q := by
  intro l
  induction l with
  | nil =>
    intro _ m0 hm0 kg hkg
    exact hm0 kg hkg
  | cons p ps ih =>
    intro hl m0 hm0
    exact ih (fun x hx => hl x (List.mem_cons_of_mem _ hx)) _
      (addTo_inv Q m0 (key p) (val p) hm0 (hl p (List.mem_cons_self _ _)))

/-- The flattened values of an `addTo` fold are a permutation of the
initial values followed by the pushed values. -/
theorem foldl_addTo_flat_perm {α K V : Type} [DecidableEq K] (key : α → K) (val : α → V) :
    ∀ (l : List α) (m0 : List (K × List V)),
      (flatVals (l.foldl (fun m p => addTo m (key p) (val p)) m0)).Perm
        (flatVals m0 ++ l.map val) := by
  intro l
  induction l with
  | nil => intro m0; simp
  | cons p ps ih =>
    intro m0
    rw [List.foldl_cons]
    have h1 := ih (addTo m0 (key p) (val p))
    have h2 : (flatVals (addTo m0 (key p) (val p)) ++ ps.map val).Perm
        ((flatVals m0 ++ [val p]) ++ ps.map val) :=
      (addTo_flat_perm m0 (key p) (val p)).append_right _
    refine (h1.trans h2).trans ?_
    rw [List.map_cons, List.append_assoc]
    exact List.Perm.refl _

/-- Key distinctness is preserved by an `addTo` fold. -/
theorem foldl_addTo_keys_nodup {α K V : Type} [DecidableEq K] (key : α → K) (val : α → V) :
    ∀ (l : List α) (m0 : List (K × List V)), (m0.map Prod.fst).Nodup →
      (((l.foldl (fun m p => addTo m (key p) (val p)) m0)).map Prod.fst).Nodup := by
  intro l
  induction l with
  | nil => intro m0 h; exact h
  | cons p ps ih =>
    intro m0 h
    exact ih _ (addTo_keys_nodup m0 (key p) (val p) h)

/-- All groups created by an `addTo` fold are nonempty. -/
theorem foldl_addTo_nonempty {α K V : Type} [DecidableEq K] (key : α → K) (val : α → V) :
    ∀ (l : List α) (m0 : List (K × List V)), (∀ kg ∈ m0, kg.2 ≠ []) →
      ∀ kg ∈ l.foldl (fun m p => addTo m (key p) (val p)) m0, kg.2 ≠ [] := by
  intro l
  induction l with
  | nil => intro m0 h kg hkg; exact h kg hkg
  | cons p ps ih =>
    intro m0 h
    refine ih _ ?_
    intro kg hkg
    clear ih
    induction m0 with
    | nil =>
      simp only [addTo] at hkg
      rcases List.mem_singleton.mp hkg with rfl
      simp
    | cons e rest ih0 =>
      obtain ⟨k0, vs⟩ := e
      by_cases hk : k0 = key p
      · simp only [addTo, if_pos hk] at hkg
        rcases List.mem_cons.mp hkg with rfl | hkg
        · simp
        · exact h kg (List.mem_cons_of_mem _ hkg)
      · simp only [addTo, if_neg hk] at hkg
        rcases List.mem_cons.mp hkg with rfl | hkg
        · exact h (k0, vs) (List.mem_cons_self _ _)
        · exact ih0 (fun x hx => h x (List.mem_cons_of_mem _ hx)) hkg

/-- `setPair` keeps the keys without duplicates. -/
theorem setPair_keys_nodup {K V : Type} [DecidableEq K] (m : List (K × V)) (k : K) (v : V)
    (h : (m.map Prod.fst).Nodup) : ((setPair m k v).map Prod.fst).Nodup := by
  induction m with
  | nil => simp [setPair]
  | cons e rest ih =>
    obtain ⟨k0, v0⟩ := e
    by_cases hk : k0 = k
    · simpa only [setPair, if_pos hk, List.map_cons] using h
    · simp only [setPair, if_neg hk, List.map_cons, List.nodup_cons] at h ⊢
      refine ⟨?_, ih h.2⟩
      intro hcon
      have : k0 ∈ (rest.map Prod.fst) ∨ k0 = k := by
        clear h ih
        induction rest with
        | nil =>
          simp [setPair] at hcon
          right
          exact hcon
        | cons e2 rest2 ih2 =>
          obtain ⟨k2, v2⟩ := e2
          by_cases hk2 : k2 = k
          · simp only [setPair, if_pos hk2, List.map_cons] at hcon
            rcases List.mem_cons.mp hcon with rfl | hcon
            · left; simp
            · left; simp [hcon]
          · simp only [setPair, if_neg hk2, List.map_cons] at hcon
            rcases List.mem_cons.mp hcon with rfl | hcon
            · left; simp
            · rcases ih2 hcon with h2 | h2
              · left; simp [h2]
              · right; exact h2
      rcases this with h2 | h2
      · exact h.1 h2
      · exact hk h2

/-- In a map with distinct keys, the value of a key is unique. -/
theorem nodupKeys_entry_unique {K V : Type} [DecidableEq K] {m : List (K × V)}
    (h : (m.map Prod.fst).Nodup) {k : K} {v1 v2 : V}
    (h1 : (k, v1) ∈ m) (h2 : (k, v2) ∈ m) : v1 = v2 := by
  induction m with
  | nil => simp at h1
  | cons e rest ih =>
    obtain ⟨k0, v0⟩ := e
    simp only [List.map_cons, List.nodup_cons] at h
    rcases List.mem_cons.mp h1 with he1 | h1
    · obtain ⟨hk, hv⟩ := Prod.mk.inj he1
      rcases List.mem_cons.mp h2 with he2 | h2
      · obtain ⟨hk2, hv2⟩ := Prod.mk.inj he2
        rw [hv, hv2]
      · exfalso
        apply h.1
        rw [← hk]
        simpa using List.mem_map_of_mem Prod.fst h2
    · rcases List.mem_cons.mp h2 with he2 | h2
      · obtain ⟨hk2, hv2⟩ := Prod.mk.inj he2
        exfalso
        apply h.1
        rw [← hk2]
        simpa using List.mem_map_of_mem Prod.fst h1
      · exact ih h.2 h1 h2

/-- A `setPair` fold adds only entries of the iterated list. -/
theorem foldl_setPair_inv {K V : Type} [DecidableEq K] (P : K × V → Prop) :
    ∀ (l : List (K × V)), (∀ e ∈ l, P e) →
      ∀ m0, (∀ e ∈ m0, P e) →
        ∀ e ∈ l.foldl (fun m kv => setPair m kv.1 kv.2) m0, P e := by
  intro l
  induction l with
  | nil => intro _ m0 hm0 e he; exact hm0 e he
  | cons kv l ih =>
    intro hl m0 hm0
    rw [List.foldl_cons]
    refine ih (fun x hx => hl x (List.mem_cons_of_mem _ hx)) _ ?_
    intro e he
    rcases setPair_mem m0 kv.1 kv.2 e he with he | he
    · exact hm0 e he
    · rw [he]
      have := hl kv (List.mem_cons_self _ _)
      simpa using this

/-- Facts about `finalizeOne`: the source path and size of a photo are
unchanged; the key and hash-error flag fall into four exhaustive cases
mirroring the Go branches. -/
theorem finalizeOne_srcPath (oracle : String → Option String) (s : Int) (p : Photo) :
    ((finalizeOne oracle s p).2).srcPath = p.srcPath ∧
    ((finalizeOne oracle s p).2).size = p.size := by
  unfold finalizeOne
  by_cases h1 : p.hashError
  · simp [h1]
  · by_cases h2 : p.hash = ""
    · cases h3 : oracle p.srcPath with
      | none => simp [h1, h2, h3]
      | some h => simp [h1, h2, h3]
    · simp [h1, h2]

/-- Case analysis of `finalizeOne` along the Go branches. -/
theorem finalizeOne_cases (oracle : String → Option String) (s : Int) (p : Photo) :
    (p.hashError = true ∧
      finalizeOne oracle s p = ("nohash:" ++ toString s ++ ":" ++ p.srcPath, p)) ∨
    (p.hashError = false ∧ p.hash = "" ∧ oracle p.srcPath = none ∧
      finalizeOne oracle s p =
        ("nohash:" ++ toString s ++ ":" ++ p.srcPath, { p with hashError := true })) ∨
    (p.hashError = false ∧ p.hash = "" ∧ (∃ h, oracle p.srcPath = some h ∧
      finalizeOne oracle s p = (h, { p with hash := h }))) ∨
    (p.hashError = false ∧ p.hash ≠ "" ∧ finalizeOne oracle s p = (p.hash, p)) := by
  by_cases h1 : p.hashError
  · left
    exact ⟨h1, by simp [finalizeOne, h1]⟩
  · have h1' : p.hashError = false := by simpa using h1
    by_cases h2 : p.hash = ""
    · rcases h3 : oracle p.srcPath with - | h
      · right; left
        refine ⟨h1', h2, rfl, ?_⟩
        simp [finalizeOne, h1, h2, h3]
      · right; right; left
        refine ⟨h1', h2, h, rfl, ?_⟩
        simp [finalizeOne, h1, h2, h3]
    · right; right; right
      exact ⟨h1', h2, by simp [finalizeOne, h1, h2]⟩

/-- The `"<size>bytes"` singleton keys are not hex strings (they contain
the letter y). -/
theorem bytesKey_not_hex (s : Int) : isHexStr (toString s ++ "bytes") = false := by
  cases h : isHexStr (toString s ++ "bytes") with
  | false => rfl
  | true =>
    exfalso
    have hy : 'y' ∈ (toString s ++ "bytes").data := by
      rw [String.data_append]
      exact List.mem_append_right _ (by decide)
    have := List.all_eq_true.mp h 'y' hy
    simp [isHexChar] at this

/-- The `"nohash:..."` per-path keys are not hex strings (they contain
the letter n). -/
theorem nohashKey_not_hex (s : Int) (path : String) :
    isHexStr ("nohash:" ++ toString s ++ ":" ++ path) = false := by
  cases h : isHexStr ("nohash:" ++ toString s ++ ":" ++ path) with
  | false => rfl
  | true =>
    exfalso
    have hn : 'n' ∈ ("nohash:" ++ toString s ++ ":" ++ path).data := by
      rw [String.data_append, String.data_append, String.data_append]
      exact List.mem_append_left _ (List.mem_append_left _ (List.mem_append_left _ (by decide)))
    have := List.all_eq_true.mp h 'n' hn
    simp [isHexChar] at this

/-- Two equal `"nohash:..."` keys of the same size class name the same
source path. -/
theorem nohashKey_inj (s : Int) (a b : String)
    (h : "nohash:" ++ toString s ++ ":" ++ a = "nohash:" ++ toString s ++ ":" ++ b) :
    a = b := by
  have hd := congrArg String.data h
  rw [String.data_append, String.data_append] at hd
  have := List.append_cancel_left hd
  cases a; cases b
  exact congrArg String.mk this

/-- Members of a size group are input photos of that size. -/
theorem sizeGroups_mem (photos : List Photo) :
    ∀ kg ∈ sizeGroupsOf photos, ∀ q ∈ kg.2, q ∈ photos ∧ q.size = kg.1 := by
  have := foldl_addTo_inv (fun p : Photo => p.size) (fun p => p)
    (fun k q => q ∈ photos ∧ q.size = k) photos
    (fun p hp => ⟨hp, rfl⟩) [] (by intro kg h; simp at h)
  intro kg hkg q hq
  exact this kg hkg q hq

/-- The size grouping is a permutation of the input photo list. -/
theorem sizeGroups_flat_perm (photos : List Photo) :
    (flatVals (sizeGroupsOf photos)).Perm photos := by
  have := foldl_addTo_flat_perm (fun p : Photo => p.size) (fun p => p) photos []
  simpa [flatVals] using this

/-- Size-group keys are distinct. -/
theorem sizeGroups_keys_nodup (photos : List Photo) :
    ((sizeGroupsOf photos).map Prod.fst).Nodup :=
  foldl_addTo_keys_nodup (fun p : Photo => p.size) (fun p => p) photos [] (by simp)

/-- Size groups are nonempty. -/
theorem sizeGroups_nonempty (photos : List Photo) :
    ∀ kg ∈ sizeGroupsOf photos, kg.2 ≠ [] :=
  foldl_addTo_nonempty (fun p : Photo => p.size) (fun p => p) photos [] (by intro kg h; simp at h)

/-- Members of a hash group come from the size group through
`finalizeOne`, with the group key being the computed key. -/
theorem hashGroups_mem (oracle : String → Option String) (s : Int) (g : List Photo) :
    ∀ kg ∈ hashGroupsOf oracle s g, ∀ q ∈ kg.2,
      ∃ p ∈ g, finalizeOne oracle s p = (kg.1, q) := by
  have := foldl_addTo_inv (fun p : Photo => (finalizeOne oracle s p).1)
    (fun p => (finalizeOne oracle s p).2)
    (fun k q => ∃ p ∈ g, finalizeOne oracle s p = (k, q)) g
    (fun p hp => ⟨p, hp, rfl⟩) [] (by intro kg h; simp at h)
  intro kg hkg q hq
  exact this kg hkg q hq

/-- The hash grouping of one size group is a permutation of its
finalized members. -/
theorem hashGroups_flat_perm (oracle : String → Option String) (s : Int) (g : List Photo) :
    (flatVals (hashGroupsOf oracle s g)).Perm
      (g.map (fun p => (finalizeOne oracle s p).2)) := by
  have := foldl_addTo_flat_perm (fun p : Photo => (finalizeOne oracle s p).1)
    (fun p => (finalizeOne oracle s p).2) g []
  simpa [flatVals] using this

/-- Hash groups are nonempty. -/
theorem hashGroups_nonempty (oracle : String → Option String) (s : Int) (g : List Photo) :
    ∀ kg ∈ hashGroupsOf oracle s g, kg.2 ≠ [] :=
  foldl_addTo_nonempty _ _ g [] (by intro kg h; simp at h)

/-- Provenance of the final grouping: every entry comes from a size
group, either accepted whole as a singleton under its `"<size>bytes"`
key, or as one hash group of a multi-member size group. -/
theorem groupIdentical_entry_src (oracle : String → Option String) (photos : List Photo) :
    ∀ kg ∈ groupIdentical oracle photos, ∃ ssg ∈ sizeGroupsOf photos,
      (ssg.2.length = 1 ∧ kg.1 = toString ssg.1 ++ "bytes" ∧ kg.2 = ssg.2) ∨
      (ssg.2.length ≠ 1 ∧ kg ∈ hashGroupsOf oracle ssg.1 ssg.2) := by
  unfold groupIdentical
  have main : ∀ (l : List (Int × List Photo)), (∀ sg ∈ l, sg ∈ sizeGroupsOf photos) →
      ∀ acc, (∀ kg ∈ acc, ∃ ssg ∈ sizeGroupsOf photos,
          (ssg.2.length = 1 ∧ kg.1 = toString ssg.1 ++ "bytes" ∧ kg.2 = ssg.2) ∨
          (ssg.2.length ≠ 1 ∧ kg ∈ hashGroupsOf oracle ssg.1 ssg.2)) →
      ∀ kg ∈ l.foldl
          (fun fin sg =>
            if sg.2.length = 1 then setPair fin (toString sg.1 ++ "bytes") sg.2
            else (hashGroupsOf oracle sg.1 sg.2).foldl
              (fun fin2 kg2 => setPair fin2 kg2.1 kg2.2) fin)
          acc, ∃ ssg ∈ sizeGroupsOf photos,
        (ssg.2.length = 1 ∧ kg.1 = toString ssg.1 ++ "bytes" ∧ kg.2 = ssg.2) ∨
        (ssg.2.length ≠ 1 ∧ kg ∈ hashGroupsOf oracle ssg.1 ssg.2) := by
    intro l
    induction l with
    | nil => intro _ acc hacc kg hkg; exact hacc kg hkg
    | cons sg l ih =>
      intro hl acc hacc
      rw [List.foldl_cons]
      refine ih (fun x hx => hl x (List.mem_cons_of_mem _ hx)) _ ?_
      by_cases hlen : sg.2.length = 1
      · rw [if_pos hlen]
        intro kg hkg
        rcases setPair_mem acc (toString sg.1 ++ "bytes") sg.2 kg hkg with hold | hnew
        · exact hacc kg hold
        · refine ⟨sg, hl sg (List.mem_cons_self _ _), Or.inl ⟨hlen, ?_, ?_⟩⟩
          · rw [hnew]
          · rw [hnew]
      · rw [if_neg hlen]
        refine foldl_setPair_inv _ (hashGroupsOf oracle sg.1 sg.2) ?_ acc hacc
        intro e he
        exact ⟨sg, hl sg (List.mem_cons_self _ _), Or.inr ⟨hlen, he⟩⟩
  intro kg hkg
  exact main (sizeGroupsOf photos) (fun sg h => h) [] (by intro kg h; simp at h) kg hkg

/-- The final grouping has distinct keys. -/
theorem groupIdentical_keys_nodup (oracle : String → Option String) (photos : List Photo) :
    ((groupIdentical oracle photos).map Prod.fst).Nodup := by
  unfold groupIdentical
  have main : ∀ (l : List (Int × List Photo)) (acc : List (String × List Photo)),
      (acc.map Prod.fst).Nodup →
      ((l.foldl
          (fun fin sg =>
            if sg.2.length = 1 then setPair fin (toString sg.1 ++ "bytes") sg.2
            else (hashGroupsOf oracle sg.1 sg.2).foldl
              (fun fin2 kg2 => setPair fin2 kg2.1 kg2.2) fin)
          acc).map Prod.fst).Nodup := by
    intro l
    induction l with
    | nil => intro acc h; exact h
    | cons sg l ih =>
      intro acc h
      rw [List.foldl_cons]
      refine ih _ ?_
      by_cases hlen : sg.2.length = 1
      · rw [if_pos hlen]
        exact setPair_keys_nodup acc _ _ h
      · rw [if_neg hlen]
        have inner : ∀ (l2 : List (String × List Photo)) (m : List (String × List Photo)),
            (m.map Prod.fst).Nodup →
            ((l2.foldl (fun fin2 kg2 => setPair fin2 kg2.1 kg2.2) m).map Prod.fst).Nodup := by
          intro l2
          induction l2 with
          | nil => intro m hm; exact hm
          | cons e l2 ih2 =>
            intro m hm
            rw [List.foldl_cons]
            exact ih2 _ (setPair_keys_nodup m e.1 e.2 hm)
        exact inner _ acc h
  exact main (sizeGroupsOf photos) [] (by simp)

/-- Every final group is nonempty. -/
theorem groupIdentical_nonempty (oracle : String → Option String) (photos : List Photo) :
    ∀ kg ∈ groupIdentical oracle photos, kg.2 ≠ [] := by
  intro kg hkg
  rcases groupIdentical_entry_src oracle photos kg hkg with ⟨ssg, hssg, hcase⟩
  rcases hcase with ⟨hlen, -, hg⟩ | ⟨-, hmem⟩
  · rw [hg]
    intro hcon
    rw [hcon] at hlen
    simp at hlen
  · exact hashGroups_nonempty oracle ssg.1 ssg.2 kg hmem

/-- One insertion step is a permutation with the inserted element. -/
theorem goInsertR_perm (less : α → α → Bool) (a : α) :
    ∀ l : List α, (goInsertR less a l).Perm (a :: l) := by
  intro l
  induction l with
  | nil => simp [goInsertR]
  | cons y ys ih =>
    by_cases h : less a y
    · simp only [goInsertR, if_pos h]
      exact (ih.cons y).trans (List.Perm.swap a y ys)
    · simp only [goInsertR, if_neg h]
      exact List.Perm.refl _

/-- Go's insertion sort permutes its input. -/
theorem goInsertionSort_perm (less : α → α → Bool) (l : List α) :
    (goInsertionSort less l).Perm l := by
  unfold goInsertionSort
  have main : ∀ (l : List α) (acc : List α),
      (l.foldl (fun acc a => (goInsertR less a acc.reverse).reverse) acc).Perm (acc ++ l) := by
    intro l
    induction l with
    | nil => intro acc; simp
    | cons a l ih =>
      intro acc
      rw [List.foldl_cons]
      refine (ih _).trans ?_
      have h1 : ((goInsertR less a acc.reverse).reverse ++ l).Perm
          ((goInsertR less a acc.reverse) ++ l) :=
        (List.reverse_perm _).append_right l
      refine h1.trans ?_
      have h2 : ((goInsertR less a acc.reverse) ++ l).Perm ((a :: acc.reverse) ++ l) :=
        (goInsertR_perm less a acc.reverse).append_right l
      refine h2.trans ?_
      have h3 : ((a :: acc.reverse) ++ l).Perm ((a :: acc) ++ l) := by
        refine List.Perm.append_right l ?_
        exact (List.reverse_perm acc).cons a
      refine h3.trans ?_
      have : (a :: (acc ++ l)).Perm (acc ++ a :: l) := by
        simpa using List.perm_middle.symm
      simpa using this
  simpa using main l []

/-- The representative appended for one final group, as `MergeIdentical`
computes it. -/
def groupRep (g : List Photo) : Photo :=
  if g.length = 1 then g.headD defaultPhoto else mergeGroup g

/-- `MergeIdentical` is the per-group representative map over the final
grouping. -/
theorem mergeIdentical_eq_map (oracle : String → Option String) (photos : List Photo) :
    mergeIdentical oracle photos =
      (groupIdentical oracle photos).map (fun kg => groupRep kg.2) := by
  unfold mergeIdentical
  have main : ∀ (l : List (String × List Photo)) (acc : List Photo),
      (l.foldl
        (fun result kg =>
          if kg.2.length = 1 then result ++ [kg.2.headD defaultPhoto]
          else result ++ [mergeGroup kg.2]) acc) = acc ++ l.map (fun kg => groupRep kg.2) := by
    intro l
    induction l with
    | nil => intro acc; simp
    | cons kg l ih =>
      intro acc
      rw [List.foldl_cons, List.map_cons]
      by_cases h : kg.2.length = 1
      · rw [if_pos h, ih]
        simp [groupRep, h]
      · rw [if_neg h, ih]
        simp [groupRep, h]
  simpa using main (groupIdentical oracle photos) []

/-- The representative of a nonempty group agrees with some member on
hash, hash-error flag, source path and size (only the album set is
rebuilt by the merge). -/
theorem groupRep_fields (g : List Photo) (hne : g ≠ []) :
    ∃ q ∈ g, (groupRep g).hash = q.hash ∧ (groupRep g).hashError = q.hashError ∧
      (groupRep g).srcPath = q.srcPath ∧ (groupRep g).size = q.size := by
  unfold groupRep
  by_cases h : g.length = 1
  · rw [if_pos h]
    rcases List.length_eq_one.mp h with ⟨a, rfl⟩
    exact ⟨a, List.mem_singleton_self a, rfl, rfl, rfl, rfl⟩
  · rw [if_neg h]
    unfold mergeGroup
    have hperm := goInsertionSort_perm chooseBestLess g
    cases hs : goInsertionSort chooseBestLess g with
    | nil =>
      exfalso
      apply hne
      rw [hs] at hperm
      exact List.Perm.eq_nil hperm.symm
    | cons best rest =>
      refine ⟨best, ?_, by simp, by simp, by simp, by simp⟩
      rw [hs] at hperm
      exact hperm.mem_iff.mp (List.mem_cons_self _ _)

/-- Within every final group, source paths are pairwise distinct
(assuming they are pairwise distinct in the input, which `BuildRegistry`
guarantees since the registry holds one record per distinct file). -/
theorem groupIdentical_pairwise_srcPath (oracle : String → Option String)
    (photos : List Photo)
    (hpath : photos.Pairwise (fun p q => p.srcPath ≠ q.srcPath)) :
    ∀ kg ∈ groupIdentical oracle photos,
      kg.2.Pairwise (fun a b => a.srcPath ≠ b.srcPath) := by
  have hsymm : ∀ {x y : Photo}, x.srcPath ≠ y.srcPath → y.srcPath ≠ x.srcPath :=
    fun h h2 => h h2.symm
  have hflat : (flatVals (sizeGroupsOf photos)).Pairwise
      (fun a b => a.srcPath ≠ b.srcPath) :=
    ((sizeGroups_flat_perm photos).pairwise_iff hsymm).mpr hpath
  have hsize : ∀ ssg ∈ sizeGroupsOf photos,
      ssg.2.Pairwise (fun a b => a.srcPath ≠ b.srcPath) := by
    intro ssg hssg
    have hmem : ssg.2 ∈ (sizeGroupsOf photos).map Prod.snd :=
      List.mem_map_of_mem Prod.snd hssg
    exact hflat.sublist (List.sublist_flatten_of_mem hmem)
  intro kg hkg
  rcases groupIdentical_entry_src oracle photos kg hkg with ⟨ssg, hssg, hcase⟩
  rcases hcase with ⟨-, -, hg⟩ | ⟨-, hmem⟩
  · rw [hg]
    exact hsize ssg hssg
  · have hmap : (ssg.2.map (fun p => (finalizeOne oracle ssg.1 p).2)).Pairwise
        (fun a b => a.srcPath ≠ b.srcPath) := by
      rw [List.pairwise_map]
      refine (hsize ssg hssg).imp ?_
      intro a b hab
      rw [(finalizeOne_srcPath oracle ssg.1 a).1, (finalizeOne_srcPath oracle ssg.1 b).1]
      exact hab
    have hflat2 : (flatVals (hashGroupsOf oracle ssg.1 ssg.2)).Pairwise
        (fun a b => a.srcPath ≠ b.srcPath) :=
      ((hashGroups_flat_perm oracle ssg.1 ssg.2).pairwise_iff hsymm).mpr hmap
    have hmem2 : kg.2 ∈ (hashGroupsOf oracle ssg.1 ssg.2).map Prod.snd :=
      List.mem_map_of_mem Prod.snd hmem
    exact hflat2.sublist (List.sublist_flatten_of_mem hmem2)

/-- Facts about a surviving non-hash-failed member of a final group: its
hash is the true content hash of its source path; it descends from an
input photo with its path and size; and its group's key is either its
own hash (multi-member size class) or the `"<size>bytes"` key of a
singleton size class of its size. -/
theorem survivor_facts (oracle : String → Option String) (trueHash : String → String)
    (photos : List Photo)
    (hhex : ∀ p ∈ photos, p.hash ≠ "" → isHexStr p.hash = true)
    (horacle : ∀ path h, oracle path = some h →
      isHexStr h = true ∧ h ≠ "" ∧ h = trueHash path)
    (htrue : ∀ p ∈ photos, p.hashError = false → p.hash ≠ "" →
      p.hash = trueHash p.srcPath) :
    ∀ kg ∈ groupIdentical oracle photos, ∀ q ∈ kg.2,
      q.hashError = false → q.hash ≠ "" →
      q.hash = trueHash q.srcPath ∧
      (∃ pp ∈ photos, pp.srcPath = q.srcPath ∧ pp.size = q.size) ∧
      ∃ ssg ∈ sizeGroupsOf photos, ssg.1 = q.size ∧
        ((ssg.2.length = 1 ∧ kg.1 = toString q.size ++ "bytes") ∨
          (ssg.2.length ≠ 1 ∧ kg.1 = q.hash)) := by
  intro kg hkg q hq herr hhash
  rcases groupIdentical_entry_src oracle photos kg hkg with ⟨ssg, hssg, hcase⟩
  rcases hcase with ⟨hlen, hkey, hg⟩ | ⟨hlen, hmem⟩
  · rw [hg] at hq
    obtain ⟨hqphotos, hqsize⟩ := sizeGroups_mem photos ssg hssg q hq
    refine ⟨htrue q hqphotos herr hhash, ⟨q, hqphotos, rfl, rfl⟩,
      ssg, hssg, hqsize.symm, Or.inl ⟨hlen, ?_⟩⟩
    rw [hkey, hqsize]
  · obtain ⟨p, hp, hfin⟩ := hashGroups_mem oracle ssg.1 ssg.2 kg hmem q hq
    obtain ⟨hpphotos, hpsize⟩ := sizeGroups_mem photos ssg hssg p hp
    have hq2 : (finalizeOne oracle ssg.1 p).2 = q := congrArg Prod.snd hfin
    have hk2 : (finalizeOne oracle ssg.1 p).1 = kg.1 := congrArg Prod.fst hfin
    have hsrc : q.srcPath = p.srcPath := by
      rw [← hq2]
      exact (finalizeOne_srcPath oracle ssg.1 p).1
    have hsize : q.size = p.size := by
      rw [← hq2]
      exact (finalizeOne_srcPath oracle ssg.1 p).2
    have hs1 : ssg.1 = q.size := by rw [hsize, hpsize]
    rcases finalizeOne_cases oracle ssg.1 p with
      ⟨hpe, heq⟩ | ⟨hpe, hph, hor, heq⟩ | ⟨hpe, hph, h, hor, heq⟩ | ⟨hpe, hph, heq⟩
    · exfalso
      rw [heq] at hq2
      simp only at hq2
      rw [← hq2] at herr
      rw [hpe] at herr
      cases herr
    · exfalso
      rw [heq] at hq2
      simp only at hq2
      have : q.hashError = true := by rw [← hq2]
      rw [this] at herr
      cases herr
    · rw [heq] at hq2 hk2
      simp only at hq2 hk2
      obtain ⟨hhexh, hhne, hhtrue⟩ := horacle p.srcPath h hor
      have hqh : q.hash = h := by rw [← hq2]
      refine ⟨?_, ⟨p, hpphotos, hsrc.symm, by rw [← hsize]⟩,
        ssg, hssg, hs1, Or.inr ⟨hlen, ?_⟩⟩
      · rw [hqh, hsrc, hhtrue]
      · rw [← hk2, hqh]
    · rw [heq] at hq2 hk2
      simp only at hq2 hk2
      refine ⟨?_, ⟨p, hpphotos, hsrc.symm, by rw [← hsize]⟩,
        ssg, hssg, hs1, Or.inr ⟨hlen, ?_⟩⟩
      · rw [← hq2] at herr hhash ⊢
        rw [hsrc] at *
        exact htrue p hpphotos herr hhash
      · rw [← hk2, ← hq2]

/-- A list of pairwise path-distinct photos whose paths all agree with
a member's path is that member's singleton. -/
theorem pairwise_allsame_singleton {l : List Photo} {q : Photo}
    (hpw : l.Pairwise (fun a b => a.srcPath ≠ b.srcPath))
    (hall : ∀ x ∈ l, x.srcPath = q.srcPath) (hq : q ∈ l) : l = [q] := by
  cases l with
  | nil => cases hq
  | cons x t =>
    cases t with
    | nil =>
      rcases List.mem_singleton.mp hq with rfl
      rfl
    | cons y t2 =>
      exfalso
      have hxy := (List.pairwise_cons.mp hpw).1 y (List.mem_cons_self _ _)
      have hx := hall x (List.mem_cons_self _ _)
      have hy := hall y (List.mem_cons_of_mem _ (List.mem_cons_self _ _))
      rw [hx, hy] at hxy
      exact hxy rfl

/-- Hash-failed members sit in singleton groups: the per-path
`"nohash:"` key isolates them (given distinct input source paths, and
given that real hashes are hex strings so no hash key can collide with a
`"nohash:"` key). -/
theorem groupIdentical_isolation (oracle : String → Option String) (trueHash : String → String)
    (photos : List Photo)
    (hpath : photos.Pairwise (fun p q => p.srcPath ≠ q.srcPath))
    (hhex : ∀ p ∈ photos, p.hash ≠ "" → isHexStr p.hash = true)
    (horacle : ∀ path h, oracle path = some h →
      isHexStr h = true ∧ h ≠ "" ∧ h = trueHash path) :
    ∀ kg ∈ groupIdentical oracle photos, ∀ q ∈ kg.2,
      q.hashError = true → kg.2 = [q] := by
  intro kg hkg q hq herr
  have hpw := groupIdentical_pairwise_srcPath oracle photos hpath kg hkg
  rcases groupIdentical_entry_src oracle photos kg hkg with ⟨ssg, hssg, hcase⟩
  rcases hcase with ⟨hlen, hkey, hg⟩ | ⟨hlen, hmem⟩
  · rcases List.length_eq_one.mp hlen with ⟨a, ha⟩
    rw [hg, ha] at hq ⊢
    rcases List.mem_singleton.mp hq with rfl
    rfl
  · obtain ⟨p, hp, hfin⟩ := hashGroups_mem oracle ssg.1 ssg.2 kg hmem q hq
    have hq2 : (finalizeOne oracle ssg.1 p).2 = q := congrArg Prod.snd hfin
    have hk2 : (finalizeOne oracle ssg.1 p).1 = kg.1 := congrArg Prod.fst hfin
    have hsrc : q.srcPath = p.srcPath := by
      rw [← hq2]
      exact (finalizeOne_srcPath oracle ssg.1 p).1
    have hkey : kg.1 = "nohash:" ++ toString ssg.1 ++ ":" ++ q.srcPath := by
      rcases finalizeOne_cases oracle ssg.1 p with
        ⟨hpe, heq⟩ | ⟨hpe, hph, hor, heq⟩ | ⟨hpe, hph, h, hor, heq⟩ | ⟨hpe, hph, heq⟩
      · rw [heq] at hk2
        rw [← hk2, hsrc]
      · rw [heq] at hk2
        rw [← hk2, hsrc]
      · exfalso
        rw [heq] at hq2
        simp only at hq2
        have : q.hashError = false := by rw [← hq2]; exact hpe
        rw [this] at herr
        cases herr
      · exfalso
        rw [heq] at hq2
        simp only at hq2
        have : q.hashError = false := by rw [← hq2]; exact hpe
        rw [this] at herr
        cases herr
    have hall : ∀ q' ∈ kg.2, q'.srcPath = q.srcPath := by
      intro q' hq'
      obtain ⟨p', hp', hfin'⟩ := hashGroups_mem oracle ssg.1 ssg.2 kg hmem q' hq'
      obtain ⟨hp'photos, -⟩ := sizeGroups_mem photos ssg hssg p' hp'
      have hq2' : (finalizeOne oracle ssg.1 p').2 = q' := congrArg Prod.snd hfin'
      have hk2' : (finalizeOne oracle ssg.1 p').1 = kg.1 := congrArg Prod.fst hfin'
      have hsrc' : q'.srcPath = p'.srcPath := by
        rw [← hq2']
        exact (finalizeOne_srcPath oracle ssg.1 p').1
      rcases finalizeOne_cases oracle ssg.1 p' with
        ⟨hpe, heq⟩ | ⟨hpe, hph, hor, heq⟩ | ⟨hpe, hph, h, hor, heq⟩ | ⟨hpe, hph, heq⟩
      · rw [heq] at hk2'
        simp only at hk2'
        rw [hkey] at hk2'
        rw [hsrc']
        exact (nohashKey_inj ssg.1 p'.srcPath q.srcPath hk2').symm ▸
          (nohashKey_inj ssg.1 p'.srcPath q.srcPath hk2')
      · rw [heq] at hk2'
        simp only at hk2'
        rw [hkey] at hk2'
        rw [hsrc']
        exact nohashKey_inj ssg.1 p'.srcPath q.srcPath hk2'
      · exfalso
        obtain ⟨hhexh, -, -⟩ := horacle p'.srcPath h hor
        rw [heq] at hk2'
        have hk3 : h = kg.1 := hk2'
        rw [hkey] at hk3
        rw [hk3] at hhexh
        rw [nohashKey_not_hex ssg.1 q.srcPath] at hhexh
        cases hhexh
      · exfalso
        have hhexh := hhex p' hp'photos hph
        rw [heq] at hk2'
        have hk3 : p'.hash = kg.1 := hk2'
        rw [hkey] at hk3
        rw [hk3] at hhexh
        rw [nohashKey_not_hex ssg.1 q.srcPath] at hhexh
        cases hhexh
    exact pairwise_allsame_singleton hpw hall hq

/-- Distinct positions in a map with distinct keys carry distinct keys. -/
theorem keys_get_ne {K V : Type} {l : List (K × V)} (h : (l.map Prod.fst).Nodup)
    (i j : Fin l.length) (hij : i.1 ≠ j.1) : (l.get i).1 ≠ (l.get j).1 := by
  intro hcon
  apply hij
  have hi : (i.1 : Nat) < (l.map Prod.fst).length := by simpa using i.2
  have hj : (j.1 : Nat) < (l.map Prod.fst).length := by simpa using j.2
  have e1 : (l.map Prod.fst).get ⟨i.1, hi⟩ = (l.get i).1 := by
    rw [List.get_eq_getElem, List.getElem_map Prod.fst]
    congr 1
  have e2 : (l.map Prod.fst).get ⟨j.1, hj⟩ = (l.get j).1 := by
    rw [List.get_eq_getElem, List.getElem_map Prod.fst]
    congr 1
  have heq : (l.map Prod.fst).get ⟨i.1, hi⟩ = (l.map Prod.fst).get ⟨j.1, hj⟩ := by
    rw [e1, e2, hcon]
  have h3 := (List.Nodup.get_inj_iff h).mp heq
  have h4 := congrArg Fin.val h3
  simpa using h4

/-- Positions of the merge result are the group representatives of the
final grouping at the same positions. -/
theorem mergeIdentical_get (oracle : String → Option String) (photos : List Photo)
    (i : Nat) (hi : i < (mergeIdentical oracle photos).length) :
    ∃ (hi' : i < (groupIdentical oracle photos).length),
      (mergeIdentical oracle photos).get ⟨i, hi⟩ =
        groupRep ((groupIdentical oracle photos).get ⟨i, hi'⟩).2 := by
  have hmap := mergeIdentical_eq_map oracle photos
  have hlen : (mergeIdentical oracle photos).length =
      (groupIdentical oracle photos).length := by rw [hmap, List.length_map]
  refine ⟨hlen ▸ hi, ?_⟩
  rw [List.get_eq_getElem]
  rw [List.getElem_of_eq hmap hi]
  rw [List.getElem_map]
  congr 1

/-- C2: assuming the input photos have pairwise distinct source paths,
hex hashes that are the true content hashes of their files (which
`BuildRegistry` establishes: distinct registry records hold distinct
paths, and every stored hash is a hex SHA-256 of the file, either fresh
or from a size- and mtime-validated cache entry), and that the true hash
determines the file size (SHA-256 collision freedom over the inputs), no
two distinct records surviving `MergeIdentical` share a nonempty content
hash unless one is hash-failed, and hash-failed photos are isolated in
singleton per-path groups of the grouping, so they are never merged with
any other file. -/
theorem dedup_no_shared_hash (oracle : String → Option String) (trueHash : String → String)
    (photos : List Photo)
    (hpath : photos.Pairwise (fun p q => p.srcPath ≠ q.srcPath))
    (hhex : ∀ p ∈ photos, p.hash ≠ "" → isHexStr p.hash = true)
    (horacle : ∀ path h, oracle path = some h →
      isHexStr h = true ∧ h ≠ "" ∧ h = trueHash path)
    (htrue : ∀ p ∈ photos, p.hashError = false → p.hash ≠ "" →
      p.hash = trueHash p.srcPath)
    (hsize : ∀ p ∈ photos, ∀ q ∈ photos,
      trueHash p.srcPath = trueHash q.srcPath → p.size = q.size) :
    (∀ (i j : Fin (mergeIdentical oracle photos).length), i.1 ≠ j.1 →
      ((mergeIdentical oracle photos).get i).hash =
        ((mergeIdentical oracle photos).get j).hash →
      ((mergeIdentical oracle photos).get i).hash ≠ "" →
      ((mergeIdentical oracle photos).get i).hashError = true ∨
        ((mergeIdentical oracle photos).get j).hashError = true) ∧
    (∀ kg ∈ groupIdentical oracle photos, ∀ q ∈ kg.2,
      q.hashError = true → kg.2 = [q]) := by
  constructor
  · intro i j hij hhash hne
    by_contra hcon
    push_neg at hcon
    obtain ⟨hei, hej⟩ := hcon
    have hei' : ((mergeIdentical oracle photos).get i).hashError = false := by
      simpa using hei
    have hej' : ((mergeIdentical oracle photos).get j).hashError = false := by
      simpa using hej
    obtain ⟨hi', hgi⟩ := mergeIdentical_get oracle photos i.1 i.2
    obtain ⟨hj', hgj⟩ := mergeIdentical_get oracle photos j.1 j.2
    have hgi' : (mergeIdentical oracle photos).get i =
        groupRep ((groupIdentical oracle photos).get ⟨i.1, hi'⟩).2 := by
      rw [← hgi]
    have hgj' : (mergeIdentical oracle photos).get j =
        groupRep ((groupIdentical oracle photos).get ⟨j.1, hj'⟩).2 := by
      rw [← hgj]
    set G := groupIdentical oracle photos with hG
    set ei := G.get ⟨i.1, hi'⟩ with hei2
    set ej := G.get ⟨j.1, hj'⟩ with hej2
    have heimem : ei ∈ G := List.get_mem G i.1 hi'
    have hejmem : ej ∈ G := List.get_mem G j.1 hj'
    have heine : ei.2 ≠ [] := groupIdentical_nonempty oracle photos ei heimem
    have hejne : ej.2 ≠ [] := groupIdentical_nonempty oracle photos ej hejmem
    obtain ⟨qi, hqi, hqih, hqie, hqis, hqiz⟩ := groupRep_fields ei.2 heine
    obtain ⟨qj, hqj, hqjh, hqje, hqjs, hqjz⟩ := groupRep_fields ej.2 hejne
    have hqierr : qi.hashError = false := by rw [← hqie, ← hgi']; exact hei'
    have hqjerr : qj.hashError = false := by rw [← hqje, ← hgj']; exact hej'
    have hqihash : qi.hash ≠ "" := by rw [← hqih, ← hgi']; exact hne
    have hqeq : qi.hash = qj.hash := by
      rw [← hqih, ← hqjh, ← hgi', ← hgj']
      exact hhash
    have hqjhash : qj.hash ≠ "" := by rw [← hqeq]; exact hqihash
    obtain ⟨hti, ⟨pi, hpi, hpisrc, hpisize⟩, ssgi, hssgi, hsi, hcasei⟩ :=
      survivor_facts oracle trueHash photos hhex horacle htrue ei heimem qi hqi hqierr hqihash
    obtain ⟨htj, ⟨pj, hpj, hpjsrc, hpjsize⟩, ssgj, hssgj, hsj, hcasej⟩ :=
      survivor_facts oracle trueHash photos hhex horacle htrue ej hejmem qj hqj hqjerr hqjhash
    have hsizeeq : qi.size = qj.size := by
      have h1 : trueHash pi.srcPath = trueHash pj.srcPath := by
        rw [hpisrc, hpjsrc, ← hti, ← htj, hqeq]
      have := hsize pi hpi pj hpj h1
      rw [← hpisize, ← hpjsize]
      exact this
    have hkeysne : ei.1 ≠ ej.1 :=
      keys_get_ne (groupIdentical_keys_nodup oracle photos) ⟨i.1, hi'⟩ ⟨j.1, hj'⟩ hij
    rcases hcasei with ⟨hleni, hkeyi⟩ | ⟨hleni, hkeyi⟩
    · rcases hcasej with ⟨hlenj, hkeyj⟩ | ⟨hlenj, hkeyj⟩
      · apply hkeysne
        rw [hkeyi, hkeyj, hsizeeq]
      · have hsseq : ssgi.2 = ssgj.2 := by
          have h1 : (ssgi.1, ssgi.2) ∈ sizeGroupsOf photos := hssgi
          have h2 : (ssgi.1, ssgj.2) ∈ sizeGroupsOf photos := by
            have : ssgi.1 = ssgj.1 := by rw [hsi, hsj, hsizeeq]
            rw [this]
            exact hssgj
          exact nodupKeys_entry_unique (sizeGroups_keys_nodup photos) h1 h2
        rw [hsseq] at hleni
        exact hlenj hleni
    · rcases hcasej with ⟨hlenj, hkeyj⟩ | ⟨hlenj, hkeyj⟩
      · have hsseq : ssgi.2 = ssgj.2 := by
          have h1 : (ssgi.1, ssgi.2) ∈ sizeGroupsOf photos := hssgi
          have h2 : (ssgi.1, ssgj.2) ∈ sizeGroupsOf photos := by
            have : ssgi.1 = ssgj.1 := by rw [hsi, hsj, hsizeeq]
            rw [this]
            exact hssgj
          exact nodupKeys_entry_unique (sizeGroups_keys_nodup photos) h1 h2
        rw [hsseq] at hleni
        exact hleni hlenj
      · apply hkeysne
        rw [hkeyi, hkeyj, hqeq]
  · exact groupIdentical_isolation oracle trueHash photos hpath hhex horacle

/-- Witness for the C2 theorem at a concrete input: three photos, two
identical (same size and hex hash, different paths and albums) and one
hash-failed, with the identity oracle facts supplied; the merge result
has no two distinct survivors sharing a nonempty hash, and the
hash-failed photo forms its own singleton group. -/
theorem dedup_no_shared_hash_witness :
    ((mergeIdentical (fun _ => none)
        [⟨"ab", false, "x1", "", ["A"], "", 0, 5⟩,
         ⟨"ab", false, "x2", "", ["B"], "", 0, 5⟩,
         ⟨"", true, "x3", "", [], "", 0, 5⟩]).map
      (fun p => (p.hash, p.hashError))).Nodup ∧
    (groupIdentical (fun _ => none)
        [⟨"ab", false, "x1", "", ["A"], "", 0, 5⟩,
         ⟨"ab", false, "x2", "", ["B"], "", 0, 5⟩,
         ⟨"", true, "x3", "", [], "", 0, 5⟩]).length = 2 ∧
    (∀ kg ∈ groupIdentical (fun _ => none)
        [⟨"ab", false, "x1", "", ["A"], "", 0, 5⟩,
         ⟨"ab", false, "x2", "", ["B"], "", 0, 5⟩,
         ⟨"", true, "x3", "", [], "", 0, 5⟩], ∀ q ∈ kg.2,
      q.hashError = true → kg.2 = [q]) := by
  refine ⟨by decide, by decide, ?_⟩
  have := dedup_no_shared_hash (fun _ => none) (fun p => if p = "x1" ∨ p = "x2" then "ab" else "cd")
    [⟨"ab", false, "x1", "", ["A"], "", 0, 5⟩,
     ⟨"ab", false, "x2", "", ["B"], "", 0, 5⟩,
     ⟨"", true, "x3", "", [], "", 0, 5⟩]
    (by decide) (by decide) (by intro path h hcon; cases hcon) (by decide) (by decide)
  exact this.2
